import Mathlib

/-!
# Text shaping and font fallback (`internal/painter/font.go`)

A shallow embedding of the font-fallback and text-walking code of the painter
package, followed by theorems about it.

Conventions of the embedding:

* `float32` values are rationals (the arithmetic is exact);
* `fixed.Int26_6` values are integers counting 1/64 units;
* a `rune` is its code point, a `string` is the list of its runes;
* `font.Face` is a pointer: `none` is the nil face;
* the shaper, the face splitter and the system font scan live in external
  libraries and are parameters of the functions that call them.
-/

namespace Painter

/-! ## Data model -/

/-- A rune is a Unicode code point. -/
abbrev Rune := Nat

/-- Code point of the tab character. -/
def tabRune : Rune := 9

/-- Code point of the carriage return. -/
def crRune : Rune := 13

/-- Code point of the space character. -/
def spaceRune : Rune := 32

/-- The default width of a tab in spaces (`DefaultTabWidth`). -/
def DefaultTabWidth : Int := 4

/-- The space advance used for tabs of a proportional style (`fontTabSpaceSize`). -/
def fontTabSpaceSize : ℚ := 10

/-- A parsed font: `ptr` identifies the object, `cmap` is its rune-to-glyph table. -/
structure FaceData where
  ptr : Nat
  cmap : List (Rune × Nat)
  deriving DecidableEq, Repr

/-- The type `font.Face` is a pointer to the parsed font; `none` is nil. -/
abbrev Face := Option FaceData

/-- The call `f.NominalGlyph(r)` on a non-nil face: the glyph of `r`, if any. -/
def FaceData.NominalGlyph (f : FaceData) (r : Rune) : Option Nat :=
  (f.cmap.find? (fun p => p.1 == r)).map (fun p => p.2)

/-- The `ok` result of `f.NominalGlyph(r)`. -/
def FaceData.hasGlyph (f : FaceData) (r : Rune) : Bool :=
  (f.NominalGlyph r).isSome

/-- The type `fyne.TextStyle`: the flags the painter reads, and the tab width. -/
structure TextStyle where
  Bold : Bool := false
  Italic : Bool := false
  Monospace : Bool := false
  Symbol : Bool := false
  TabWidth : Int := 0
  deriving DecidableEq, Repr

/-- The type `shaping.Glyph`: the fields the painter reads. -/
structure Glyph where
  GlyphID : Nat
  XAdvance : Int
  deriving DecidableEq, Repr

/-- The type `shaping.Bounds`. -/
structure Bounds where
  Ascent : Int := 0
  Descent : Int := 0
  Gap : Int := 0
  deriving DecidableEq, Repr

/-- The library method `Bounds.LineThickness`. -/
def Bounds.LineThickness (b : Bounds) : Int :=
  b.Ascent - b.Descent + b.Gap

/-- The type `shaping.Output`: the fields the painter reads. -/
structure Output where
  Glyphs : List Glyph := []
  Advance : Int := 0
  LineBounds : Bounds := {}
  deriving DecidableEq, Repr

/-- The type `shaping.Input` (the direction is always left-to-right here). -/
structure Input where
  Text : List Rune
  RunStart : Nat
  RunEnd : Nat
  Face : Face
  Size : Int
  deriving DecidableEq, Repr

/-- The Go slice expression `l[a:b]`, for `a ≤ b ≤ len(l)`. -/
def slice {α : Type} (l : List α) (a b : Nat) : List α :=
  (l.drop a).take (b - a)

/-- The runes of the sub-run `[RunStart, RunEnd)` of an input. -/
def Input.runText (i : Input) : List Rune :=
  slice i.Text i.RunStart i.RunEnd

/-! ## Fixed point and tab stops -/

/-- The conversion `fixed266ToFloat32`. -/
def fixed266ToFloat32 (i : Int) : ℚ :=
  (i : ℚ) / 64

/-- The integer part returned by `math.Modf`: truncation toward zero. -/
def modfInt (f : ℚ) : Int :=
  if 0 ≤ f then ⌊f⌋ else ⌈f⌉

/-- The function `tabStop` (`spacew` is not zero in any call the painter makes
with a positive scale). -/
def tabStop (spacew x : ℚ) (tabWidth : Int) : ℚ :=
  let tabWidth := if tabWidth ≤ 0 then DefaultTabWidth else tabWidth
  let tabw := spacew * (tabWidth : ℚ)
  let tabs := modfInt ((x + tabw) / tabw)
  tabw * (tabs : ℚ)

/-! ## Shaping one sub-run -/

/-- The local variables of the loop of `shapeCallback`, and the calls of `cb` so far. -/
structure ShapeVars where
  start : Nat
  pending : Bool
  adv : Int
  x : ℚ
  calls : List (Output × ℚ)

/-- One iteration of the loop of `shapeCallback`, at index `i` and glyph `g`. -/
def shapeStep (out : Output) (glyphs : List Glyph) (scale : ℚ)
    (v : ShapeVars) (i : Nat) (g : Glyph) : ShapeVars :=
  let v1 : ShapeVars :=
    if g.GlyphID = 0 then
      let v2 : ShapeVars :=
        if v.pending then
          { v with
            calls := v.calls ++ [({ out with Glyphs := slice glyphs v.start i }, v.x)]
            x := v.x + fixed266ToFloat32 v.adv * scale
            adv := 0 }
        else v
      { start := i + 1
        pending := false
        adv := 0
        x := v2.x + fixed266ToFloat32 g.XAdvance * scale
        calls := v2.calls ++ [({ out with Glyphs := slice glyphs i (i + 1) }, v2.x)] }
    else { v with pending := true }
  { v1 with adv := v1.adv + g.XAdvance }

/-- The loop `for i, g := range out.Glyphs` of `shapeCallback`, from index `i`. -/
def shapeLoop (out : Output) (glyphs : List Glyph) (scale : ℚ) :
    List Glyph → Nat → ShapeVars → ShapeVars
  | [], _, v => v
  | g :: rest, i, v => shapeLoop out glyphs scale rest (i + 1) (shapeStep out glyphs scale v i g)

/-- The function `shapeCallback`: the returned pen position and the calls of
`cb` in order, each with the output and the position it received. -/
def shapeCallback (Shape : Input → Output) (inp : Input) (x scale : ℚ) :
    ℚ × List (Output × ℚ) :=
  let out := Shape inp
  let glyphs := out.Glyphs
  let v := shapeLoop out glyphs scale out.Glyphs 0
    { start := 0, pending := false, adv := 0, x := x, calls := [] }
  let v : ShapeVars :=
    if v.pending then
      { v with
        calls := v.calls ++ [({ out with Glyphs := glyphs.drop v.start }, v.x)]
        x := v.x + fixed266ToFloat32 v.adv * scale
        adv := 0 }
    else v
  (v.x + fixed266ToFloat32 v.adv * scale, v.calls)

/-- The glyph slices of a sequence of `cb` calls. -/
def emittedRuns (calls : List (Output × ℚ)) : List (List Glyph) :=
  calls.map (fun c => c.1.Glyphs)

/-- The sum of the advances of a glyph sequence. -/
def sumAdvance (gs : List Glyph) : Int :=
  (gs.map (fun g => g.XAdvance)).sum

/-! ## Walking a string -/

/-- The interface `shaping.Fontmap`, seen as the face it resolves for each rune
(the walk reads the map only through the faces it returns). -/
abbrev Fontmap := Rune → Face

/-- The variables of `walkString` that outlive a face-run: the pen `x`, and a
record of what the walk did: the inputs handed to `shaper.Shape` by
`shapeCallback`, the calls of `cb`, and the pen after each tab. -/
structure WalkVars where
  x : ℚ
  shaped : List Input
  calls : List (Output × ℚ)
  tabs : List ℚ

/-- The statement `x = shapeCallback(shaper, in, x, scale, cb)`. -/
def callShape (Shape : Input → Output) (scale : ℚ) (inp : Input) (w : WalkVars) : WalkVars :=
  let r := shapeCallback Shape inp w.x scale
  { w with x := r.1, shaped := w.shaped ++ [inp], calls := w.calls ++ r.2 }

/-- The variables of the loop over one face-run of `walkString`. -/
structure RunVars where
  inp : Input
  pending : Bool
  w : WalkVars

/-- One iteration of the loop `for i, r := range in.Text[in.RunStart:in.RunEnd]`. -/
def tabStep (Shape : Input → Output) (scale spacew : ℚ) (style : TextStyle) (inEnd : Nat)
    (v : RunVars) (i : Nat) (r : Rune) : RunVars :=
  if r = tabRune then
    let w1 : WalkVars :=
      if v.pending then callShape Shape scale { v.inp with RunEnd := i } v.w else v.w
    let x := tabStop spacew w1.x style.TabWidth
    { inp := { v.inp with RunStart := i + 1, RunEnd := inEnd }
      pending := false
      w := { w1 with x := x, tabs := w1.tabs ++ [x] } }
  else { v with pending := true }

/-- The loop over the runes of one face-run, from index `i` of the ranged slice. -/
def tabLoop (Shape : Input → Output) (scale spacew : ℚ) (style : TextStyle) (inEnd : Nat) :
    List Rune → Nat → RunVars → RunVars
  | [], _, v => v
  | r :: rest, i, v =>
    tabLoop Shape scale spacew style inEnd rest (i + 1)
      (tabStep Shape scale spacew style inEnd v i r)

/-- The body of the loop `for _, in := range ins` of `walkString`; `none` is
the run-time panic of a slice expression out of range. -/
def walkRun (Shape : Input → Output) (scale spacew : ℚ) (style : TextStyle)
    (inp : Input) (w : WalkVars) : Option WalkVars :=
  if inp.RunStart ≤ inp.RunEnd ∧ inp.RunEnd ≤ inp.Text.length then
    let v := tabLoop Shape scale spacew style inp.RunEnd
      (slice inp.Text inp.RunStart inp.RunEnd) 0 { inp := inp, pending := false, w := w }
    some (callShape Shape scale v.inp v.w)
  else none

/-- The loop `for _, in := range ins` of `walkString`. -/
def walkRuns (Shape : Input → Output) (scale spacew : ℚ) (style : TextStyle) :
    List Input → WalkVars → Option WalkVars
  | [], w => some w
  | inp :: rest, w =>
    match walkRun Shape scale spacew style inp w with
    | none => none
    | some w1 => walkRuns Shape scale spacew style rest w1

/-- What `walkString` returns and does: the size and baseline, the value left
in `*advance`, and the record kept in `WalkVars`. -/
structure WalkResult where
  size : ℚ × ℚ
  base : ℚ
  advance : ℚ
  shaped : List Input
  calls : List (Output × ℚ)
  tabs : List ℚ

/-- The text of `walkString` after `strings.ReplaceAll(s, "\r", "")`. -/
def stripCR (s : List Rune) : List Rune :=
  s.filter (fun r => r != crRune)

/-- The input that `walkString` shapes first to measure a space. -/
def spaceInput (faces : Fontmap) (textSize : Int) : Input :=
  { Text := [spaceRune], RunStart := 0, RunEnd := 1, Face := faces spaceRune, Size := textSize }

/-- The input that `walkString` passes to `shaping.SplitByFace`. -/
def fullInput (faces : Fontmap) (s : List Rune) (textSize : Int) : Input :=
  { spaceInput faces textSize with
    Text := stripCR s, RunStart := 0, RunEnd := (stripCR s).length }

/-- The function `walkString`. The splitter `shaping.SplitByFace` and the
shaper are library code and are parameters; `shaped` records the inputs that
`shapeCallback` hands to the shaper (the reference shape of a single space is
not one of them). -/
def walkString (SplitByFace : Input → Fontmap → List Input) (Shape : Input → Output)
    (faces : Fontmap) (s : List Rune) (textSize : Int) (style : TextStyle) (scale : ℚ) :
    Option WalkResult :=
  let out := Shape (spaceInput faces textSize)
  let inp := fullInput faces s textSize
  let spacew :=
    if style.Monospace then scale * fixed266ToFloat32 out.Advance else scale * fontTabSpaceSize
  let ins := SplitByFace inp faces
  match walkRuns Shape scale spacew style ins { x := 0, shaped := [], calls := [], tabs := [] } with
  | none => none
  | some w =>
    some
      { size := (w.x, fixed266ToFloat32 out.LineBounds.LineThickness)
        base := fixed266ToFloat32 out.LineBounds.Ascent
        advance := w.x
        shaped := w.shaped
        calls := w.calls
        tabs := w.tabs }

/-- The conversion `float32ToFixed266`: the float times 64, truncated. -/
def float32ToFixed266 (f : ℚ) : Int :=
  modfInt (f * 64)

/-- The function `MeasureString`: `walkString` at scale 1 with a visitor that
does nothing; the two results are the size and the baseline of `walkString`. -/
def MeasureString (SplitByFace : Input → Fontmap → List Input) (Shape : Input → Output)
    (f : Fontmap) (s : List Rune) (textSize : ℚ) (style : TextStyle) : Option ((ℚ × ℚ) × ℚ) :=
  (walkString SplitByFace Shape f s (float32ToFixed266 textSize) style 1).map
    (fun r => (r.size, r.base))

/-! ## The system font index -/

/-- The library type `metadata.Aspect`: the fields the painter sets. -/
structure Aspect where
  Style : Nat := 0
  Weight : Nat := 0
  deriving DecidableEq, Repr

/-- The library constant `metadata.StyleNormal`. -/
def StyleNormal : Nat := 1

/-- The library constant `metadata.StyleItalic`. -/
def StyleItalic : Nat := 2

/-- The library constant `metadata.WeightBold`. -/
def WeightBold : Nat := 700

/-- The library constant `fontscan.Monospace`. -/
def familyMonospace : String := "monospace"

/-- The library constant `fontscan.SansSerif`. -/
def familySansSerif : String := "sans-serif"

/-- The library type `fontscan.FontMap` with the system fonts loaded, seen
through the two queries the painter makes after `SetQuery`: the face for a
family, an aspect and a rune, and the face for a family, an aspect and the
language of the system locale. -/
structure FontMap where
  ResolveFace : String → Aspect → Rune → Face
  ResolveFaceForLang : String → Aspect → Face

/-- The package variables `fm` and `load`, with what the system scan yields
when `loadMap` runs (`none`: `loadSystemFonts` returns an error) and the rune
queries made to the font map so far. -/
structure FontIndex where
  fm : Option FontMap
  loaded : Bool
  system : Option FontMap
  runeQueries : List (String × Aspect × Rune)

/-- The function `loadMap`: `fm` is the scanned font map, or nil when
`loadSystemFonts` returns an error. -/
def loadMap (g : FontIndex) : FontIndex :=
  { g with fm := g.system }

/-- The call `load.Do(loadMap)`. -/
def loadOnce (g : FontIndex) : FontIndex :=
  if g.loaded then g else { loadMap g with loaded := true }

/-- The function `lookupLangFont`. -/
def lookupLangFont (family : String) (aspect : Aspect) (g : FontIndex) : Face × FontIndex :=
  let g1 := loadOnce g
  match g1.fm with
  | none => (none, g1)
  | some m => (m.ResolveFaceForLang family aspect, g1)

/-- The function `lookupRuneFont`. -/
def lookupRuneFont (r : Rune) (family : String) (aspect : Aspect) (g : FontIndex) :
    Face × FontIndex :=
  let g1 := loadOnce g
  match g1.fm with
  | none => (none, g1)
  | some m =>
    (m.ResolveFace family aspect r,
      { g1 with runeQueries := g1.runeQueries ++ [(family, aspect, r)] })

/-! ## The dynamic face set -/

/-- The type `dynamicFontMap`. -/
structure dynamicFontMap where
  faces : List Face
  family : String

/-- The method `addFace`. -/
def dynamicFontMap.addFace (d : dynamicFontMap) (f : Face) : dynamicFontMap :=
  { d with faces := d.faces ++ [f] }

/-- The outcome of the loop `for _, f := range d.faces` of `ResolveFace`. -/
inductive Scan where
  | nilFace
  | found (f : FaceData)
  | missing
  deriving DecidableEq, Repr

/-- The loop `for _, f := range d.faces` of `ResolveFace`: the first face with
a glyph for `r`; calling `NominalGlyph` on a nil face is a run-time panic. -/
def scanFaces (r : Rune) : List Face → Scan
  | [] => Scan.missing
  | none :: _ => Scan.nilFace
  | some f :: rest => if f.hasGlyph r then Scan.found f else scanFaces r rest

/-- The method `dynamicFontMap.ResolveFace`: the face returned, the face set
and the font index afterwards; `none` is a run-time panic (a nil face in the
scan, or `d.faces[0]` on an empty list). -/
def dynamicFontMap.ResolveFace (d : dynamicFontMap) (r : Rune) (g : FontIndex) :
    Option (Face × dynamicFontMap × FontIndex) :=
  match scanFaces r d.faces with
  | Scan.nilFace => none
  | Scan.found f => some (some f, d, g)
  | Scan.missing =>
    let (toAdd, g1) := lookupRuneFont r d.family {} g
    if toAdd ≠ none then some (toAdd, d.addFace toAdd, g1)
    else
      match d.faces with
      | [] => none
      | f0 :: _ => some (f0, d, g1)

/-! ## The style cache -/

/-- A font resource (`fyne.Resource`), identified by the object it is. -/
abbrev Resource := Nat

/-- The font resources of the theme package that `CachedFontFace` reads: the
current theme's font and the toolkit default for each style, and the default
emoji font, which may be nil. -/
structure ThemeFonts where
  TextFont : Resource
  DefaultTextFont : Resource
  TextBoldFont : Resource
  DefaultTextBoldFont : Resource
  TextItalicFont : Resource
  DefaultTextItalicFont : Resource
  TextBoldItalicFont : Resource
  DefaultTextBoldItalicFont : Resource
  TextMonospaceFont : Resource
  DefaultTextMonospaceFont : Resource
  SymbolFont : Resource
  DefaultSymbolFont : Resource
  DefaultEmojiFont : Option Resource

/-- The function `lookupFaces`; `loadMeasureFont` parses a resource (nil on a
parse error). -/
def lookupFaces (loadMeasureFont : Resource → Face) (theme fallback : Resource)
    (family : String) (style : TextStyle) (g : FontIndex) : dynamicFontMap × FontIndex :=
  let f1 := loadMeasureFont theme
  let faces : dynamicFontMap :=
    if theme = fallback then { family := family, faces := [f1] }
    else { family := family, faces := [f1, loadMeasureFont fallback] }
  let aspect : Aspect := { Style := StyleNormal }
  let aspect : Aspect := if style.Italic then { aspect with Style := StyleItalic } else aspect
  let aspect : Aspect := if style.Bold then { aspect with Weight := WeightBold } else aspect
  let (local_, g1) := lookupLangFont family aspect g
  if local_ ≠ none then (faces.addFace local_, g1) else (faces, g1)

/-- The type `FontCacheItem`. -/
structure FontCacheItem where
  Fonts : dynamicFontMap

/-- The package variable `fontCache`: the item stored for each style, if any. -/
abbrev FontCache := TextStyle → Option FontCacheItem

/-- The call `fontCache.Store(style, val)`. -/
def FontCache.Store (c : FontCache) (style : TextStyle) (val : FontCacheItem) : FontCache :=
  fun k => if k = style then some val else c k

/-- The faces that the `switch` of `CachedFontFace` builds for a style. -/
def switchFaces (th : ThemeFonts) (loadMeasureFont : Resource → Face) (style : TextStyle)
    (g : FontIndex) : dynamicFontMap × FontIndex :=
  if style.Monospace then
    lookupFaces loadMeasureFont th.TextMonospaceFont th.DefaultTextMonospaceFont
      familyMonospace style g
  else if style.Bold then
    if style.Italic then
      lookupFaces loadMeasureFont th.TextBoldItalicFont th.DefaultTextBoldItalicFont
        familySansSerif style g
    else
      lookupFaces loadMeasureFont th.TextBoldFont th.DefaultTextBoldFont
        familySansSerif style g
  else if style.Italic then
    lookupFaces loadMeasureFont th.TextItalicFont th.DefaultTextItalicFont
      familySansSerif style g
  else if style.Symbol then
    let f1 := loadMeasureFont th.SymbolFont
    if th.SymbolFont = th.DefaultSymbolFont then
      ({ family := familySansSerif, faces := [f1] }, g)
    else
      ({ family := familySansSerif, faces := [f1, loadMeasureFont th.DefaultSymbolFont] }, g)
  else
    lookupFaces loadMeasureFont th.TextFont th.DefaultTextFont familySansSerif style g

/-- The face set that `CachedFontFace` builds when the style is not cached:
the faces of the `switch`, then the emoji face. -/
def buildFaces (th : ThemeFonts) (loadMeasureFont : Resource → Face) (style : TextStyle)
    (g : FontIndex) : dynamicFontMap × FontIndex :=
  let (faces, g1) := switchFaces th loadMeasureFont style g
  match th.DefaultEmojiFont with
  | some emoji =>
    if !style.Symbol then (faces.addFace (loadMeasureFont emoji), g1) else (faces, g1)
  | none => (faces, g1)

/-- The function `CachedFontFace` (its two float arguments are not read). -/
def CachedFontFace (th : ThemeFonts) (loadMeasureFont : Resource → Face) (style : TextStyle)
    (fontCache : FontCache) (g : FontIndex) : FontCacheItem × FontCache × FontIndex :=
  match fontCache style with
  | some val => (val, fontCache, g)
  | none =>
    let (faces, g1) := buildFaces th loadMeasureFont style g
    let val : FontCacheItem := { Fonts := faces }
    (val, fontCache.Store style val, g1)

/-! ## The metrics cache -/

/-- A `fyne.Size`: width and height. -/
abbrev Size := ℚ × ℚ

/-- The key of the metrics cache: text, font size and style. -/
structure MetricsKey where
  text : List Rune
  fontSize : ℚ
  style : TextStyle
  deriving DecidableEq

/-- The metrics cache of package `cache`: the size and baseline stored for each key. -/
abbrev MetricsCache := MetricsKey → Option (Size × ℚ)

/-- Modelled from the spec: the function `cache.GetFontMetrics` is not in the
sources at hand; it returns the size and baseline stored for the key, and a
zero size with baseline zero when nothing is stored. -/
def GetFontMetrics (c : MetricsCache) (text : List Rune) (fontSize : ℚ) (style : TextStyle) :
    Size × ℚ :=
  match c { text := text, fontSize := fontSize, style := style } with
  | some m => m
  | none => ((0, 0), 0)

/-- Modelled from the spec: the function `cache.SetFontMetrics` is not in the
sources at hand; it stores the size and baseline under the key. -/
def SetFontMetrics (c : MetricsCache) (text : List Rune) (fontSize : ℚ) (style : TextStyle)
    (size : Size) (base : ℚ) : MetricsCache :=
  fun k =>
    if k = { text := text, fontSize := fontSize, style := style } then some (size, base)
    else c k

/-- The metrics cache together with a record of the calls of `measureText`. -/
structure MetricsState where
  cache : MetricsCache
  measured : List MetricsKey

/-- The function `RenderedTextSize`; `measureText` is taken as a function of
its arguments. -/
def RenderedTextSize (measureText : List Rune → ℚ → TextStyle → Size × ℚ)
    (text : List Rune) (fontSize : ℚ) (style : TextStyle) (m : MetricsState) :
    (Size × ℚ) × MetricsState :=
  let (size, base) := GetFontMetrics m.cache text fontSize style
  if base ≠ 0 then ((size, base), m)
  else
    let (size, base) := measureText text fontSize style
    ((size, base),
      { cache := SetFontMetrics m.cache text fontSize style size base
        measured := m.measured ++ [{ text := text, fontSize := fontSize, style := style }] })

/-- The state after `n` calls of `RenderedTextSize` with the same arguments. -/
def renderedTimes (measureText : List Rune → ℚ → TextStyle → Size × ℚ)
    (text : List Rune) (fontSize : ℚ) (style : TextStyle) : Nat → MetricsState → MetricsState
  | 0, m => m
  | n + 1, m =>
    renderedTimes measureText text fontSize style n
      (RenderedTextSize measureText text fontSize style m).2

/-! ## The specification's words -/

/-- The width of one tab in pen units: the space advance times the configured
width in characters, or times the default width when that is not positive. -/
def tabUnit (spacew : ℚ) (n : Int) : ℚ :=
  if 0 < n then spacew * (n : ℚ) else spacew * (DefaultTabWidth : ℚ)

/-- The tab stop as the specification words it:
`tabWidth * ceil((x + tabWidth) / tabWidth)`, with the default width when the
configured one is not positive. -/
def tabStopCeil (spacew x : ℚ) (n : Int) : ℚ :=
  tabUnit spacew n * ((⌈(x + tabUnit spacew n) / tabUnit spacew n⌉ : Int) : ℚ)

/-- The cases of the seed selection, in the specification's order of precedence. -/
inductive SeedCase where
  | monospace
  | boldItalic
  | bold
  | italic
  | symbol
  | plain
  deriving DecidableEq, Repr

/-- The selected case by the precedence of the specification:
monospace > bold+italic > bold > italic > symbol > default plain. -/
def selectedCase (style : TextStyle) : SeedCase :=
  if style.Monospace then SeedCase.monospace
  else if style.Bold && style.Italic then SeedCase.boldItalic
  else if style.Bold then SeedCase.bold
  else if style.Italic then SeedCase.italic
  else if style.Symbol then SeedCase.symbol
  else SeedCase.plain

/-- The theme resource and the default resource of a case. -/
def seedResources (th : ThemeFonts) : SeedCase → Resource × Resource
  | SeedCase.monospace => (th.TextMonospaceFont, th.DefaultTextMonospaceFont)
  | SeedCase.boldItalic => (th.TextBoldItalicFont, th.DefaultTextBoldItalicFont)
  | SeedCase.bold => (th.TextBoldFont, th.DefaultTextBoldFont)
  | SeedCase.italic => (th.TextItalicFont, th.DefaultTextItalicFont)
  | SeedCase.symbol => (th.SymbolFont, th.DefaultSymbolFont)
  | SeedCase.plain => (th.TextFont, th.DefaultTextFont)

/-- The one or two seed faces of a case: the theme face, and the default face
when its resource is a different one. -/
def seedFaces (th : ThemeFonts) (loadMeasureFont : Resource → Face) (c : SeedCase) : List Face :=
  let p := seedResources th c
  if p.1 = p.2 then [loadMeasureFont p.1] else [loadMeasureFont p.1, loadMeasureFont p.2]

/-- The family tag of a case. -/
def caseFamily : SeedCase → String
  | SeedCase.monospace => familyMonospace
  | _ => familySansSerif

/-- The aspect that `lookupFaces` queries for a style. -/
def styleAspect (style : TextStyle) : Aspect :=
  { Style := if style.Italic then StyleItalic else StyleNormal
    Weight := if style.Bold then WeightBold else 0 }

/-- The system-font face of a case, as a list: empty for the symbol case and
when the lookup finds no face. -/
def systemFaces (c : SeedCase) (style : TextStyle) (g : FontIndex) : List Face :=
  if c = SeedCase.symbol then []
  else
    match (lookupLangFont (caseFamily c) (styleAspect style) g).1 with
    | none => []
    | some f => [some f]

/-- The emoji face, as a list: empty when there is no default emoji resource. -/
def emojiFaces (th : ThemeFonts) (loadMeasureFont : Resource → Face) : List Face :=
  match th.DefaultEmojiFont with
  | none => []
  | some emoji => [loadMeasureFont emoji]

/-- The runes that a list of shaper inputs covers, in order. -/
def shapedText (l : List Input) : List Rune :=
  (l.map Input.runText).flatten

/-- The text with carriage returns and tabs removed. -/
def stripCRTab (s : List Rune) : List Rune :=
  s.filter (fun r => r != crRune && r != tabRune)

/-- A glyph run without a missing glyph. -/
def zeroFree (run : List Glyph) : Prop :=
  ∀ g ∈ run, g.GlyphID ≠ 0


/-! ## Auxiliary notions -/

/-- The grouping of a glyph sequence into runs: `cur` is the block of
resolvable glyphs collected so far; a missing glyph closes it and stands alone. -/
def groupRuns (cur : List Glyph) : List Glyph → List (List Glyph)
  | [] => if cur = [] then [] else [cur]
  | g :: rest =>
    if g.GlyphID = 0 then (if cur = [] then [] else [cur]) ++ [g] :: groupRuns [] rest
    else groupRuns (cur ++ [g]) rest

/-- Two neighbouring runs are not both free of missing glyphs. -/
def separated (a b : List Glyph) : Prop :=
  ¬ (zeroFree a ∧ zeroFree b)


/-- The pieces between the tabs of a run of text: `cur` is the piece collected
so far; a tab closes a non-empty piece, and the last piece is kept also when
it is empty. -/
def tabPieces (cur : List Rune) : List Rune → List (List Rune)
  | [] => [cur]
  | r :: rest =>
    if r = tabRune then (if cur = [] then [] else [cur]) ++ tabPieces [] rest
    else tabPieces (cur ++ [r]) rest

/-- The face-runs `ins` divide the range `[a, b)` of `text` into consecutive
ranges, in order. -/
def isSplitFrom (text : List Rune) (b : Nat) : Nat → List Input → Bool
  | a, [] => a == b
  | a, i :: rest =>
    (i.Text == text) && (i.RunStart == a) && decide (a ≤ i.RunEnd) && decide (i.RunEnd ≤ b) &&
      isSplitFrom text b i.RunEnd rest

/-! ## Sample inputs -/

/-- A shaper that returns the same glyphs for every input. -/
def constShaper (gs : List Glyph) : Input → Output :=
  fun _ => { Glyphs := gs }

/-- An input over an empty text. -/
def emptyInput : Input :=
  { Text := [], RunStart := 0, RunEnd := 0, Face := none, Size := 0 }

/-- A missing glyph (id 0) with an advance of one pixel. -/
def missingGlyph : Glyph :=
  { GlyphID := 0, XAdvance := 64 }

/-- A resolvable glyph with an advance of one pixel. -/
def plainGlyph : Glyph :=
  { GlyphID := 5, XAdvance := 64 }


/-- A sample face covering `a`, `b` and the space. -/
def latinFace : FaceData :=
  { ptr := 1, cmap := [(97, 1), (98, 2), (32, 3)] }

/-- A second sample face covering `a` and `c`. -/
def otherFace : FaceData :=
  { ptr := 2, cmap := [(97, 7), (99, 8)] }

/-- A sample face covering the emoji U+1F600. -/
def emojiFace : FaceData :=
  { ptr := 3, cmap := [(128512, 1)] }

/-- A sample system font map: the emoji face for U+1F600, no face otherwise. -/
def sampleSystemFonts : FontMap :=
  { ResolveFace := fun _ _ r => if r = 128512 then some emojiFace else none
    ResolveFaceForLang := fun _ _ => none }

/-- A font index not loaded yet, whose scan will succeed with the sample map. -/
def freshIndex : FontIndex :=
  { fm := none, loaded := false, system := some sampleSystemFonts, runeQueries := [] }

/-- A font index whose initialization failed. -/
def failedIndex : FontIndex :=
  { fm := none, loaded := true, system := none, runeQueries := [] }

/-- A sample face set with two seed faces. -/
def sampleFaces : dynamicFontMap :=
  { faces := [some latinFace, some otherFace], family := familySansSerif }


/-- A sample theme: thirteen different resources, the emoji resource present. -/
def sampleTheme : ThemeFonts :=
  { TextFont := 1, DefaultTextFont := 2, TextBoldFont := 3, DefaultTextBoldFont := 4
    TextItalicFont := 5, DefaultTextItalicFont := 6
    TextBoldItalicFont := 7, DefaultTextBoldItalicFont := 8
    TextMonospaceFont := 9, DefaultTextMonospaceFont := 10
    SymbolFont := 11, DefaultSymbolFont := 12, DefaultEmojiFont := some 13 }

/-- A sample font parser: resource `n` parses to the face object `n`. -/
def sampleLoad (r : Resource) : Face :=
  some { ptr := r, cmap := [] }

/-- A style with the monospace and the symbol flag set. -/
def monoSymbolStyle : TextStyle :=
  { Monospace := true, Symbol := true }

/-- A style with the bold flag set. -/
def boldStyle : TextStyle :=
  { Bold := true }

/-- A style cache with no entry. -/
def emptyFontCache : FontCache :=
  fun _ => none

/-- A sample measurement: every text has width 7, height 3 and baseline 2. -/
def sampleMeasure (_ : List Rune) (_ : ℚ) (_ : TextStyle) : Size × ℚ :=
  ((7, 3), 2)

/-- A metrics cache with no entry, and no measurement made. -/
def emptyMetrics : MetricsState :=
  { cache := fun _ => none, measured := [] }


/-- The runes that keep the face of the run they are in: control characters
and the space. -/
def ignoreFaceChange (r : Rune) : Bool :=
  r ≤ 32

/-- The loop of the sample face splitter, at rune `r` of index `i`, with the
run `cur` open. -/
def splitLoop (input : Input) (faces : Fontmap) : List Rune → Nat → Input → List Input
  | [], _, cur => [{ cur with RunEnd := input.RunEnd }]
  | r :: rest, i, cur =>
    if cur.Face ≠ none ∧ ignoreFaceChange r = true then splitLoop input faces rest (i + 1) cur
    else if cur.Face = faces r then splitLoop input faces rest (i + 1) cur
    else
      (if i ≠ input.RunStart then [{ cur with RunEnd := i }] else []) ++
        splitLoop input faces rest (i + 1) { input with RunStart := i, Face := faces r }

/-- A sample face splitter in the manner of the library function
`shaping.SplitByFace`: a new run starts at each rune whose resolved face
differs from the face of the open run; control characters and spaces stay in
the open run. -/
def sampleSplit (input : Input) (faces : Fontmap) : List Input :=
  splitLoop input faces (slice input.Text input.RunStart input.RunEnd) input.RunStart input

/-- A sample face map over the sample faces: the latin face for the runes it
covers, the emoji face for U+1F600, and the latin face (index 0) otherwise. -/
def sampleFaceMap : Fontmap := fun r =>
  if latinFace.hasGlyph r then some latinFace
  else if emojiFace.hasGlyph r then some emojiFace
  else some latinFace

/-- A sample shaper: one glyph per rune of the run, each one pixel wide. -/
def sampleShaper (inp : Input) : Output :=
  { Glyphs := inp.runText.map (fun r => { GlyphID := r, XAdvance := 64 })
    Advance := 64 * inp.runText.length }

/-- A monospace style with a tab width of 4. -/
def monoStyle : TextStyle :=
  { Monospace := true, TabWidth := 4 }

/-- The text `a`, U+1F600, tab, `b`. -/
def emojiTabText : List Rune :=
  [97, 128512, 9, 98]

/-- The bounds `[RunStart, RunEnd)` of a list of inputs. -/
def runBounds (l : List Input) : List (Nat × Nat) :=
  l.map (fun i => (i.RunStart, i.RunEnd))


/-! ## Theorems: tab stops -/

theorem tabUnit_pos (spacew : ℚ) (n : Int) (hs : 0 < spacew) : 0 < tabUnit spacew n := by
  unfold tabUnit
  split
  · next h => exact mul_pos hs (by exact_mod_cast h)
  · exact mul_pos hs (by norm_num [DefaultTabWidth])

theorem tabStop_eq_floor (spacew x : ℚ) (n : Int) (hs : 0 < spacew) (hx : 0 ≤ x) :
    tabStop spacew x n =
      tabUnit spacew n * ((⌊(x + tabUnit spacew n) / tabUnit spacew n⌋ : Int) : ℚ) := by
  have hw : spacew * (((if n ≤ 0 then DefaultTabWidth else n) : Int) : ℚ) = tabUnit spacew n := by
    unfold tabUnit
    by_cases h : 0 < n
    · simp [h, not_le.mpr h]
    · simp [h, not_lt.mp h]
  have htabw := tabUnit_pos spacew n hs
  have hq : 0 ≤ (x + tabUnit spacew n) / tabUnit spacew n :=
    div_nonneg (add_nonneg hx htabw.le) htabw.le
  simp only [tabStop, hw, modfInt, hq, if_true]

/-- C6, as the code computes it: for a positive space advance and a pen
`x ≥ 0`, `tabStop` is `tabw * floor((x + tabw) / tabw)`, the largest multiple
of `tabw` not above `x + tabw`, which is the smallest multiple of `tabw`
strictly greater than `x`. -/
theorem tabStop_floor (spacew x : ℚ) (n : Int) (hs : 0 < spacew) (hx : 0 ≤ x) :
    tabStop spacew x n =
        tabUnit spacew n * ((⌊(x + tabUnit spacew n) / tabUnit spacew n⌋ : Int) : ℚ) ∧
      tabStop spacew x n ≤ x + tabUnit spacew n ∧
      x < tabStop spacew x n ∧
      (∀ j : Int, tabUnit spacew n * (j : ℚ) ≤ x + tabUnit spacew n →
        tabUnit spacew n * (j : ℚ) ≤ tabStop spacew x n) ∧
      (∀ j : Int, x < tabUnit spacew n * (j : ℚ) →
        tabStop spacew x n ≤ tabUnit spacew n * (j : ℚ)) := by
  have ht := tabUnit_pos spacew n hs
  have he := tabStop_eq_floor spacew x n hs hx
  set t := tabUnit spacew n with htdef
  set q := (x + t) / t with hqdef
  have hfl : ((⌊q⌋ : Int) : ℚ) ≤ q := Int.floor_le q
  have hlt : q < ((⌊q⌋ : Int) : ℚ) + 1 := Int.lt_floor_add_one q
  have hqt : q * t = x + t := by rw [hqdef]; field_simp
  refine ⟨he, ?_, ?_, ?_, ?_⟩
  · rw [he, ← hqt, mul_comm]
    exact mul_le_mul_of_nonneg_right hfl ht.le
  · rw [he]
    have h1 : q * t < (((⌊q⌋ : Int) : ℚ) + 1) * t := mul_lt_mul_of_pos_right hlt ht
    rw [hqt] at h1
    linarith
  · intro j hj
    rw [he]
    have h1 : (j : ℚ) ≤ q := by
      rw [hqdef, le_div_iff₀ ht]
      linarith
    have h2 : j ≤ ⌊q⌋ := Int.le_floor.mpr h1
    have h3 : (j : ℚ) ≤ ((⌊q⌋ : Int) : ℚ) := by exact_mod_cast h2
    exact mul_le_mul_of_nonneg_left h3 ht.le
  · intro j hj
    rw [he]
    have h1 : q < (j : ℚ) + 1 := by
      rw [hqdef, div_lt_iff₀ ht]
      linarith
    have h2 : ⌊q⌋ < j + 1 := by
      have : q < ((j + 1 : Int) : ℚ) := by push_cast; exact h1
      exact Int.floor_lt.mpr this
    have h3 : ⌊q⌋ ≤ j := by omega
    have h4 : ((⌊q⌋ : Int) : ℚ) ≤ (j : ℚ) := by exact_mod_cast h3
    exact mul_le_mul_of_nonneg_left h4 ht.le

/-- C6, witness: a space advance of 10, the pen at 5, a tab width of 4. -/
theorem tabStop_floor_witness :
    ((0 : ℚ) < 10 ∧ (0 : ℚ) ≤ 5) ∧
      (tabStop 10 5 4 =
          tabUnit 10 4 * ((⌊(5 + tabUnit 10 4) / tabUnit 10 4⌋ : Int) : ℚ) ∧
        tabStop 10 5 4 ≤ 5 + tabUnit 10 4 ∧
        5 < tabStop 10 5 4 ∧
        (∀ j : Int, tabUnit 10 4 * (j : ℚ) ≤ 5 + tabUnit 10 4 →
          tabUnit 10 4 * (j : ℚ) ≤ tabStop 10 5 4) ∧
        (∀ j : Int, 5 < tabUnit 10 4 * (j : ℚ) →
          tabStop 10 5 4 ≤ tabUnit 10 4 * (j : ℚ))) :=
  ⟨⟨by norm_num, by norm_num⟩, tabStop_floor 10 5 4 (by norm_num) (by norm_num)⟩

/-- C6, as the specification states it, fails: with a space advance of 10 and
a tab width of 4 the pen at 5 moves to 40, while
`tabw * ceil((x + tabw) / tabw)` is 80, and 40 is below `x + tabw = 45`. -/
theorem tabStop_ceil_counterexample :
    tabStop 10 5 4 = 40 ∧ tabStopCeil 10 5 4 = 80 ∧
      tabStop 10 5 4 ≠ tabStopCeil 10 5 4 ∧ tabStop 10 5 4 < 5 + tabUnit 10 4 := by
  have hf : (⌊((5 : ℚ) + 40) / 40⌋ : Int) = 1 := by
    rw [Int.floor_eq_iff]; norm_num
  have hc : (⌈((5 : ℚ) + 40) / 40⌉ : Int) = 2 := by
    rw [Int.ceil_eq_iff]; norm_num
  have hu : tabUnit 10 4 = 40 := by norm_num [tabUnit]
  have h1 : tabStop 10 5 4 = 40 := by
    rw [tabStop_eq_floor 10 5 4 (by norm_num) (by norm_num), hu, hf]; norm_num
  have h2 : tabStopCeil 10 5 4 = 80 := by
    rw [tabStopCeil, hu, hc]; norm_num
  refine ⟨h1, h2, ?_, ?_⟩
  · rw [h1, h2]; norm_num
  · rw [h1, hu]; norm_num

/-! ## Theorems: the runs of `shapeCallback` -/

theorem slice_mid {α : Type} (a b c : List α) :
    slice (a ++ b ++ c) a.length (a.length + b.length) = b := by
  simp [slice, List.append_assoc]

theorem groupRuns_flatten (cur rest : List Glyph) :
    (groupRuns cur rest).flatten = cur ++ rest := by
  induction rest generalizing cur with
  | nil => by_cases h : cur = [] <;> simp [groupRuns, h]
  | cons g rest ih =>
    by_cases hg : g.GlyphID = 0
    · by_cases h : cur = [] <;> simp [groupRuns, hg, h, ih]
    · simp [groupRuns, hg, ih]

theorem groupRuns_shape (cur rest : List Glyph) (hcur : zeroFree cur) :
    ∀ run ∈ groupRuns cur rest,
      (∃ g, run = [g] ∧ g.GlyphID = 0) ∨ (run ≠ [] ∧ zeroFree run) := by
  induction rest generalizing cur with
  | nil =>
    intro run hrun
    by_cases h : cur = []
    · simp [groupRuns, h] at hrun
    · simp only [groupRuns, h, if_false, List.mem_singleton] at hrun
      subst hrun
      exact Or.inr ⟨h, hcur⟩
  | cons g rest ih =>
    intro run hrun
    by_cases hg : g.GlyphID = 0
    · simp only [groupRuns, hg, if_true, List.mem_append, List.mem_cons] at hrun
      rcases hrun with hrun | hrun | hrun
      · by_cases h : cur = []
        · simp [h] at hrun
        · simp only [h, if_false, List.mem_singleton] at hrun
          subst hrun
          exact Or.inr ⟨h, hcur⟩
      · exact Or.inl ⟨g, hrun, hg⟩
      · exact ih [] (by intro g hgm; simp at hgm) run hrun
    · simp only [groupRuns, hg, if_false] at hrun
      refine ih (cur ++ [g]) ?_ run hrun
      intro g1 hg1
      rcases List.mem_append.mp hg1 with h1 | h1
      · exact hcur g1 h1
      · rw [List.mem_singleton.mp h1]; exact hg

theorem groupRuns_separated (cur rest : List Glyph) :
    List.Chain' separated (groupRuns cur rest) := by
  induction rest generalizing cur with
  | nil => by_cases h : cur = [] <;> simp [groupRuns, h]
  | cons g rest ih =>
    by_cases hg : g.GlyphID = 0
    · have hsep : ∀ y : List Glyph, separated [g] y := by
        intro y hy
        exact hy.1 g (List.mem_singleton.mpr rfl) hg
      have hsep2 : ∀ y : List Glyph, separated y [g] := by
        intro y hy
        exact hy.2 g (List.mem_singleton.mpr rfl) hg
      have htail : List.Chain' separated ([g] :: groupRuns [] rest) :=
        List.chain'_cons'.mpr ⟨fun y _ => hsep y, ih []⟩
      by_cases h : cur = []
      · simpa [groupRuns, hg, h] using htail
      · simp only [groupRuns, hg, h, if_true, if_false, List.singleton_append]
        exact List.chain'_cons.mpr ⟨hsep2 cur, htail⟩
    · simpa [groupRuns, hg] using ih (cur ++ [g])

theorem shapeLoop_runs (out : Output) (scale : ℚ) (rest : List Glyph) :
    ∀ (done cur : List Glyph) (v : ShapeVars),
      v.start = done.length → (v.pending = true ↔ cur ≠ []) →
      emittedRuns
          (shapeLoop out (done ++ cur ++ rest) scale rest (done.length + cur.length) v).calls ++
        (if (shapeLoop out (done ++ cur ++ rest) scale rest
            (done.length + cur.length) v).pending = true
          then [(done ++ cur ++ rest).drop
            (shapeLoop out (done ++ cur ++ rest) scale rest (done.length + cur.length) v).start]
          else []) =
        emittedRuns v.calls ++ groupRuns cur rest := by
  induction rest with
  | nil =>
    intro done cur v hs hp
    by_cases h : cur = []
    · have hpf : v.pending = false := by
        cases hv : v.pending
        · rfl
        · exact absurd (hp.mp hv) (by simp [h])
      simp [shapeLoop, groupRuns, h, hpf]
    · have hpt : v.pending = true := hp.mpr h
      simp [shapeLoop, groupRuns, h, hpt, hs]
  | cons g rest ih =>
    intro done cur v hs hp
    by_cases hg : g.GlyphID = 0
    · have hgl : done ++ cur ++ g :: rest = (done ++ cur ++ [g]) ++ [] ++ rest := by simp
      have hlen : done.length + cur.length + 1 =
          (done ++ cur ++ [g]).length + ([] : List Glyph).length := by
        simp [Nat.add_assoc]
      have hone : slice (done ++ cur ++ g :: rest) (done.length + cur.length)
          (done.length + cur.length + 1) = [g] := by
        have := slice_mid (done ++ cur) [g] rest
        simpa [List.append_assoc] using this
      have hcur : slice (done ++ cur ++ g :: rest) done.length (done.length + cur.length) = cur := by
        have := slice_mid done cur (g :: rest)
        simpa [List.append_assoc] using this
      simp only [shapeLoop]
      rw [hgl, hlen]
      rw [ih (done ++ cur ++ [g]) [] _ (by simp [shapeStep, hg, Nat.add_assoc])
        (by simp [shapeStep, hg])]
      rw [← hgl]
      by_cases h : cur = []
      · have hpf : v.pending = false := by
          cases hv : v.pending
          · rfl
          · exact absurd (hp.mp hv) (by simp [h])
        simp only [shapeStep, hg, hpf, if_true, groupRuns, h, if_false, emittedRuns]
        simp only [h, List.append_nil, List.length_nil, Nat.add_zero] at hone
        simp [hone]
      · have hpt : v.pending = true := hp.mpr h
        simp only [shapeStep, hg, hpt, if_true, groupRuns, h, if_false, emittedRuns, hs]
        simp only [List.append_assoc] at hone hcur
        simp [hone, hcur]
    · have hgl : done ++ cur ++ g :: rest = done ++ (cur ++ [g]) ++ rest := by simp
      have hlen : done.length + cur.length + 1 = done.length + (cur ++ [g]).length := by
        simp [Nat.add_assoc]
      simp only [shapeLoop]
      rw [hgl, hlen]
      rw [ih done (cur ++ [g]) _ (by simp [shapeStep, hg, hs]) (by simp [shapeStep, hg])]
      simp [shapeStep, hg, groupRuns]

theorem shapeCallback_groupRuns (Shape : Input → Output) (inp : Input) (x scale : ℚ) :
    emittedRuns (shapeCallback Shape inp x scale).2 = groupRuns [] (Shape inp).Glyphs := by
  have h := shapeLoop_runs (Shape inp) scale (Shape inp).Glyphs [] []
    { start := 0, pending := false, adv := 0, x := x, calls := [] } rfl (by simp)
  simp only [List.nil_append, List.length_nil, Nat.add_zero, emittedRuns, List.map_nil] at h
  unfold shapeCallback
  simp only [emittedRuns]
  split
  · next hp =>
    simp only [hp, if_true] at h
    simpa using h
  · next hp =>
    simp only [hp] at h
    simpa using h

/-- C8: the glyph slices passed to the visitor, in call order, concatenate to
the shaped glyph sequence; a run holding a missing glyph (id 0) is that glyph
alone; every other run is a non-empty block of glyphs with non-zero id; and no
two neighbouring runs are both free of missing glyphs, so the blocks are
maximal. -/
theorem shapeCallback_runs (Shape : Input → Output) (inp : Input) (x scale : ℚ) :
    (emittedRuns (shapeCallback Shape inp x scale).2).flatten = (Shape inp).Glyphs ∧
      (∀ run ∈ emittedRuns (shapeCallback Shape inp x scale).2,
        (∃ g, run = [g] ∧ g.GlyphID = 0) ∨ (run ≠ [] ∧ zeroFree run)) ∧
      (∀ run ∈ emittedRuns (shapeCallback Shape inp x scale).2,
        ∀ g ∈ run, g.GlyphID = 0 → run = [g]) ∧
      List.Chain' separated (emittedRuns (shapeCallback Shape inp x scale).2) := by
  rw [shapeCallback_groupRuns]
  have hshape := groupRuns_shape [] (Shape inp).Glyphs (by intro g hg; simp at hg)
  refine ⟨by simpa using groupRuns_flatten [] (Shape inp).Glyphs, hshape, ?_,
    groupRuns_separated [] (Shape inp).Glyphs⟩
  intro run hrun g hg hz
  rcases hshape run hrun with ⟨g1, h1, _⟩ | ⟨_, h2⟩
  · subst h1
    rw [List.mem_singleton.mp hg]
  · exact absurd hz (h2 g hg)

/-! ## Theorems: the pen of `shapeCallback` -/

theorem sumAdvance_append (a b : List Glyph) :
    sumAdvance (a ++ b) = sumAdvance a + sumAdvance b := by
  simp [sumAdvance]

theorem shapeLoop_zeroFree (out : Output) (glyphs : List Glyph) (scale : ℚ) (rest : List Glyph) :
    ∀ (i : Nat) (v : ShapeVars), zeroFree rest →
      shapeLoop out glyphs scale rest i v =
        { v with
          pending := v.pending || !rest.isEmpty
          adv := v.adv + sumAdvance rest } := by
  induction rest with
  | nil => intro i v _; simp [shapeLoop, sumAdvance]
  | cons g rest ih =>
    intro i v hz
    have hg : g.GlyphID ≠ 0 := hz g (List.mem_cons_self g rest)
    have hrest : zeroFree rest := fun g1 h1 => hz g1 (List.mem_cons_of_mem g h1)
    simp only [shapeLoop]
    rw [ih (i + 1) _ hrest]
    simp [shapeStep, hg, sumAdvance, add_assoc]

/-- The pen of `shapeCallback` on a shaped sequence without a missing glyph:
one run at the starting pen (none for no glyphs), and the pen advances by the
scaled sum of the advances. -/
theorem shapeCallback_zeroFree (Shape : Input → Output) (inp : Input) (x scale : ℚ)
    (hz : zeroFree (Shape inp).Glyphs) :
    shapeCallback Shape inp x scale =
      (x + fixed266ToFloat32 (sumAdvance (Shape inp).Glyphs) * scale,
        if (Shape inp).Glyphs = [] then [] else [(Shape inp, x)]) := by
  unfold shapeCallback
  simp only [shapeLoop_zeroFree (Shape inp) (Shape inp).Glyphs scale (Shape inp).Glyphs 0 _ hz]
  by_cases h : (Shape inp).Glyphs = []
  · simp [h, sumAdvance, fixed266ToFloat32]
  · have hne : (Shape inp).Glyphs.isEmpty = false := by
      cases hgl : (Shape inp).Glyphs with
      | nil => exact absurd hgl h
      | cons a l => rfl
    simp [h, hne, fixed266ToFloat32]

/-- C2 at a failing input: for a single missing glyph of advance 1 (64 units),
from pen 0 at scale 1, `shapeCallback` returns 2, not the scaled sum 1 of the
advances; and for a missing, a resolvable and a missing glyph of advance 1
each, the third run is placed at 3, not at 2, and 5 is returned, not 3. -/
theorem shapeCallback_double_advance :
    shapeCallback (constShaper [missingGlyph]) emptyInput 0 1 =
        (2, [({ Glyphs := [missingGlyph] }, 0)]) ∧
      (0 : ℚ) + 1 * fixed266ToFloat32 (sumAdvance [missingGlyph]) = 1 ∧
      shapeCallback (constShaper [missingGlyph, plainGlyph, missingGlyph]) emptyInput 0 1 =
        (5, [({ Glyphs := [missingGlyph] }, 0), ({ Glyphs := [plainGlyph] }, 1),
          ({ Glyphs := [missingGlyph] }, 3)]) ∧
      (0 : ℚ) + 1 * fixed266ToFloat32 (sumAdvance [missingGlyph, plainGlyph]) = 2 ∧
      (0 : ℚ) + 1 * fixed266ToFloat32 (sumAdvance [missingGlyph, plainGlyph, missingGlyph]) = 3 := by
  refine ⟨?_, ?_, ?_, ?_, ?_⟩
  · norm_num [shapeCallback, shapeLoop, shapeStep, constShaper, missingGlyph,
      fixed266ToFloat32, slice]
  · norm_num [sumAdvance, missingGlyph, fixed266ToFloat32]
  · norm_num [shapeCallback, shapeLoop, shapeStep, constShaper, missingGlyph, plainGlyph,
      fixed266ToFloat32, slice]
  · norm_num [sumAdvance, missingGlyph, plainGlyph, fixed266ToFloat32]
  · norm_num [sumAdvance, missingGlyph, plainGlyph, fixed266ToFloat32]

/-! ## Theorems: the dynamic face set -/

theorem scanFaces_found (r : Rune) (pre : List Face) (fd : FaceData) (post : List Face)
    (hpre : ∀ f ∈ pre, ∃ fj, f = some fj ∧ fj.hasGlyph r = false)
    (hfd : fd.hasGlyph r = true) :
    scanFaces r (pre ++ some fd :: post) = Scan.found fd := by
  induction pre with
  | nil => simp [scanFaces, hfd]
  | cons f pre ih =>
    obtain ⟨fj, hfj, hno⟩ := hpre f (List.mem_cons_self f pre)
    subst hfj
    simp only [List.cons_append, scanFaces, hno]
    exact ih (fun f1 h1 => hpre f1 (List.mem_cons_of_mem _ h1))

theorem scanFaces_missing (r : Rune) (faces : List Face)
    (hall : ∀ f ∈ faces, ∃ fj, f = some fj ∧ fj.hasGlyph r = false) :
    scanFaces r faces = Scan.missing := by
  induction faces with
  | nil => rfl
  | cons f faces ih =>
    obtain ⟨fj, hfj, hno⟩ := hall f (List.mem_cons_self f faces)
    subst hfj
    simp only [scanFaces, hno]
    exact ih (fun f1 h1 => hall f1 (List.mem_cons_of_mem _ h1))

theorem first_covering (r : Rune) (faces : List Face)
    (hnil : ∀ f ∈ faces, f ≠ none)
    (hex : ∃ fd, some fd ∈ faces ∧ fd.hasGlyph r = true) :
    ∃ pre fd post, faces = pre ++ some fd :: post ∧ fd.hasGlyph r = true ∧
      ∀ f ∈ pre, ∃ fj, f = some fj ∧ fj.hasGlyph r = false := by
  induction faces with
  | nil =>
    obtain ⟨fd, hmem, _⟩ := hex
    simp at hmem
  | cons f faces ih =>
    cases f with
    | none => exact absurd rfl (hnil none (List.mem_cons_self _ _))
    | some f0 =>
      by_cases h0 : f0.hasGlyph r = true
      · exact ⟨[], f0, faces, rfl, h0, by intro f hf; simp at hf⟩
      · have hrest : ∃ fd, some fd ∈ faces ∧ fd.hasGlyph r = true := by
          obtain ⟨fd, hmem, hfd⟩ := hex
          rcases List.mem_cons.mp hmem with h | h
          · injection h with h
            subst h
            exact absurd hfd h0
          · exact ⟨fd, h, hfd⟩
        obtain ⟨pre, fd, post, hsplit, hfd, hpre⟩ :=
          ih (fun f1 h1 => hnil f1 (List.mem_cons_of_mem _ h1)) hrest
        refine ⟨some f0 :: pre, fd, post, by simp [hsplit], hfd, ?_⟩
        intro f1 h1
        rcases List.mem_cons.mp h1 with h | h
        · exact ⟨f0, h, by simpa using h0⟩
        · exact hpre f1 h

/-- C3: when at least one face of the set reports a glyph for `r`,
`ResolveFace` returns the face of smallest index that does (the list splits
as `pre ++ F :: post` with no face of `pre` reporting a glyph), the font index
is left as it was (no query), and the face set is unchanged. -/
theorem ResolveFace_first (d : dynamicFontMap) (r : Rune) (g : FontIndex)
    (hnil : ∀ f ∈ d.faces, f ≠ none)
    (hex : ∃ fd, some fd ∈ d.faces ∧ fd.hasGlyph r = true) :
    ∃ pre fd post, d.faces = pre ++ some fd :: post ∧ fd.hasGlyph r = true ∧
      (∀ f ∈ pre, ∃ fj, f = some fj ∧ fj.hasGlyph r = false) ∧
      d.faces[pre.length]? = some (some fd) ∧
      d.ResolveFace r g = some (some fd, d, g) := by
  obtain ⟨pre, fd, post, hsplit, hfd, hpre⟩ := first_covering r d.faces hnil hex
  refine ⟨pre, fd, post, hsplit, hfd, hpre, ?_, ?_⟩
  · rw [hsplit, List.getElem?_append_right (le_refl _)]
    simp
  · unfold dynamicFontMap.ResolveFace
    rw [hsplit, scanFaces_found r pre fd post hpre hfd]

/-- C3, witness: the rune `a` is covered by both sample faces; the first wins. -/
theorem ResolveFace_first_witness :
    ((∀ f ∈ sampleFaces.faces, f ≠ none) ∧
        (∃ fd, some fd ∈ sampleFaces.faces ∧ fd.hasGlyph 97 = true)) ∧
      ∃ pre fd post, sampleFaces.faces = pre ++ some fd :: post ∧ fd.hasGlyph 97 = true ∧
        (∀ f ∈ pre, ∃ fj, f = some fj ∧ fj.hasGlyph 97 = false) ∧
        sampleFaces.faces[pre.length]? = some (some fd) ∧
        sampleFaces.ResolveFace 97 freshIndex = some (some fd, sampleFaces, freshIndex) :=
  ⟨⟨by decide, ⟨otherFace, by decide, by decide⟩⟩,
    ResolveFace_first sampleFaces 97 freshIndex (by decide) ⟨otherFace, by decide, by decide⟩⟩

/-- C4: when no face of the set has a glyph for `R` and the rune lookup of the
system font index returns a face `F` that has one, the first `ResolveFace(R)`
returns `F` and appends it as the last face (one face more, the earlier ones
unchanged); a second `ResolveFace(R)` returns the same `F` and changes neither
the font index (no lookup) nor the face list. -/
theorem ResolveFace_fallback (d : dynamicFontMap) (R : Rune) (g : FontIndex) (F : FaceData)
    (hall : ∀ f ∈ d.faces, ∃ fj, f = some fj ∧ fj.hasGlyph R = false)
    (hsys : (lookupRuneFont R d.family {} g).1 = some F)
    (hF : F.hasGlyph R = true) :
    ∃ d1 g1, d.ResolveFace R g = some (some F, d1, g1) ∧
      d1.faces = d.faces ++ [some F] ∧
      d1.faces.length = d.faces.length + 1 ∧
      (∀ i, i < d.faces.length → d1.faces[i]? = d.faces[i]?) ∧
      d1.faces.getLast? = some (some F) ∧
      d1.family = d.family ∧
      d1.ResolveFace R g1 = some (some F, d1, g1) := by
  refine ⟨d.addFace (some F), (lookupRuneFont R d.family {} g).2, ?_, rfl, ?_, ?_, ?_, rfl, ?_⟩
  · unfold dynamicFontMap.ResolveFace
    rw [scanFaces_missing R d.faces hall]
    simp [hsys]
  · simp [dynamicFontMap.addFace]
  · intro i hi
    simp [dynamicFontMap.addFace, List.getElem?_append_left hi]
  · simp [dynamicFontMap.addFace]
  · unfold dynamicFontMap.ResolveFace
    have hscan : scanFaces R (d.addFace (some F)).faces = Scan.found F := by
      simpa [dynamicFontMap.addFace] using scanFaces_found R d.faces F [] hall hF
    rw [hscan]

theorem sampleFaces_lack_emoji :
    ∀ f ∈ sampleFaces.faces, ∃ fj, f = some fj ∧ fj.hasGlyph 128512 = false := by
  intro f hf
  simp only [sampleFaces, List.mem_cons, List.mem_singleton, List.not_mem_nil, or_false] at hf
  rcases hf with h | h
  · exact ⟨latinFace, h, by decide⟩
  · exact ⟨otherFace, h, by decide⟩

/-- C4, witness: the sample faces lack the emoji U+1F600, the sample system
map has a face for it. -/
theorem ResolveFace_fallback_witness :
    ((∀ f ∈ sampleFaces.faces, ∃ fj, f = some fj ∧ fj.hasGlyph 128512 = false) ∧
        (lookupRuneFont 128512 sampleFaces.family {} freshIndex).1 = some emojiFace ∧
        emojiFace.hasGlyph 128512 = true) ∧
      ∃ d1 g1, sampleFaces.ResolveFace 128512 freshIndex = some (some emojiFace, d1, g1) ∧
        d1.faces = sampleFaces.faces ++ [some emojiFace] ∧
        d1.faces.length = sampleFaces.faces.length + 1 ∧
        (∀ i, i < sampleFaces.faces.length → d1.faces[i]? = sampleFaces.faces[i]?) ∧
        d1.faces.getLast? = some (some emojiFace) ∧
        d1.family = sampleFaces.family ∧
        d1.ResolveFace 128512 g1 = some (some emojiFace, d1, g1) :=
  ⟨⟨sampleFaces_lack_emoji,
      by simp [lookupRuneFont, loadOnce, loadMap, freshIndex, sampleSystemFonts], by decide⟩,
    ResolveFace_fallback sampleFaces 128512 freshIndex emojiFace
      sampleFaces_lack_emoji
      (by simp [lookupRuneFont, loadOnce, loadMap, freshIndex, sampleSystemFonts]) (by decide)⟩

/-- C5: when the initialization of the system font index failed (the font map
is nil once `loadMap` has run), for a face set with at least one face and a
rune `R` that none of its faces covers, `ResolveFace(R)` returns the face at
index 0 (a face, the index access does not fail), makes no query and leaves
the face list unchanged. -/
theorem ResolveFace_degraded (d : dynamicFontMap) (R : Rune) (g : FontIndex)
    (hne : d.faces ≠ [])
    (hall : ∀ f ∈ d.faces, ∃ fj, f = some fj ∧ fj.hasGlyph R = false)
    (hfail : (loadOnce g).fm = none) :
    ∃ f0, d.faces[0]? = some (some f0) ∧
      d.ResolveFace R g = some (some f0, d, loadOnce g) ∧
      (loadOnce g).runeQueries = g.runeQueries := by
  cases hfaces : d.faces with
  | nil => exact absurd hfaces hne
  | cons f rest =>
    obtain ⟨f0, hf0, _⟩ := hall f (by rw [hfaces]; exact List.mem_cons_self f rest)
    subst hf0
    refine ⟨f0, by simp, ?_, ?_⟩
    · unfold dynamicFontMap.ResolveFace
      rw [scanFaces_missing R d.faces hall]
      simp [lookupRuneFont, hfail, hfaces]
    · unfold loadOnce
      split <;> rfl

/-- C5, witness: the sample faces, the emoji U+1F600 and the failed index. -/
theorem ResolveFace_degraded_witness :
    (sampleFaces.faces ≠ [] ∧
        (∀ f ∈ sampleFaces.faces, ∃ fj, f = some fj ∧ fj.hasGlyph 128512 = false) ∧
        (loadOnce failedIndex).fm = none) ∧
      ∃ f0, sampleFaces.faces[0]? = some (some f0) ∧
        sampleFaces.ResolveFace 128512 failedIndex =
          some (some f0, sampleFaces, loadOnce failedIndex) ∧
        (loadOnce failedIndex).runeQueries = failedIndex.runeQueries :=
  ⟨⟨by decide,
      sampleFaces_lack_emoji,
      by simp [loadOnce, failedIndex]⟩,
    ResolveFace_degraded sampleFaces 128512 failedIndex (by decide)
      sampleFaces_lack_emoji
      (by simp [loadOnce, failedIndex])⟩

/-! ## Theorems: the metrics cache -/

theorem GetFontMetrics_set (c : MetricsCache) (text : List Rune) (fontSize : ℚ)
    (style : TextStyle) (size : Size) (base : ℚ) :
    GetFontMetrics (SetFontMetrics c text fontSize style size base) text fontSize style =
      (size, base) := by
  simp [GetFontMetrics, SetFontMetrics]

theorem RenderedTextSize_hit (measureText : List Rune → ℚ → TextStyle → Size × ℚ)
    (text : List Rune) (fontSize : ℚ) (style : TextStyle) (m : MetricsState)
    (h : (GetFontMetrics m.cache text fontSize style).2 ≠ 0) :
    RenderedTextSize measureText text fontSize style m =
      (GetFontMetrics m.cache text fontSize style, m) := by
  simp [RenderedTextSize, h]

theorem RenderedTextSize_miss (measureText : List Rune → ℚ → TextStyle → Size × ℚ)
    (text : List Rune) (fontSize : ℚ) (style : TextStyle) (m : MetricsState)
    (h : (GetFontMetrics m.cache text fontSize style).2 = 0) :
    RenderedTextSize measureText text fontSize style m =
      (measureText text fontSize style,
        { cache := SetFontMetrics m.cache text fontSize style
            (measureText text fontSize style).1 (measureText text fontSize style).2
          measured := m.measured ++ [{ text := text, fontSize := fontSize, style := style }] }) := by
  simp [RenderedTextSize, h]

theorem renderedTimes_zero_base (measureText : List Rune → ℚ → TextStyle → Size × ℚ)
    (text : List Rune) (fontSize : ℚ) (style : TextStyle)
    (hz : (measureText text fontSize style).2 = 0) (n : Nat) :
    ∀ m : MetricsState, (GetFontMetrics m.cache text fontSize style).2 = 0 →
      (renderedTimes measureText text fontSize style n m).measured =
        m.measured ++
          List.replicate n { text := text, fontSize := fontSize, style := style } := by
  induction n with
  | zero => intro m _; simp [renderedTimes]
  | succ n ih =>
    intro m hm
    simp only [renderedTimes]
    rw [RenderedTextSize_miss measureText text fontSize style m hm]
    rw [ih _ (by simp only [GetFontMetrics_set]; exact hz)]
    simp [List.replicate_succ]

/-- C9: with `measureText` a function of its arguments, a second call of
`RenderedTextSize` returns what the first returned; when the stored baseline
is not zero the call returns the stored pair and measures nothing; when it is
zero (or nothing is stored) the call measures once, stores the result under
the same key (other keys untouched) and returns it; and a text whose measured
baseline is zero is measured again by every call. -/
theorem RenderedTextSize_cached (measureText : List Rune → ℚ → TextStyle → Size × ℚ)
    (text : List Rune) (fontSize : ℚ) (style : TextStyle) (m : MetricsState) :
    (RenderedTextSize measureText text fontSize style
        (RenderedTextSize measureText text fontSize style m).2).1 =
        (RenderedTextSize measureText text fontSize style m).1 ∧
      ((GetFontMetrics m.cache text fontSize style).2 ≠ 0 →
        RenderedTextSize measureText text fontSize style m =
          (GetFontMetrics m.cache text fontSize style, m)) ∧
      ((GetFontMetrics m.cache text fontSize style).2 = 0 →
        (RenderedTextSize measureText text fontSize style m).1 =
            measureText text fontSize style ∧
          (RenderedTextSize measureText text fontSize style m).2.measured =
            m.measured ++ [{ text := text, fontSize := fontSize, style := style }] ∧
          (RenderedTextSize measureText text fontSize style m).2.cache
              { text := text, fontSize := fontSize, style := style } =
            some (measureText text fontSize style) ∧
          (∀ k : MetricsKey, k ≠ { text := text, fontSize := fontSize, style := style } →
            (RenderedTextSize measureText text fontSize style m).2.cache k = m.cache k)) ∧
      ((GetFontMetrics m.cache text fontSize style).2 = 0 →
        (measureText text fontSize style).2 = 0 →
        ∀ n : Nat, (renderedTimes measureText text fontSize style n m).measured =
          m.measured ++
            List.replicate n { text := text, fontSize := fontSize, style := style }) := by
  refine ⟨?_, RenderedTextSize_hit measureText text fontSize style m, ?_, ?_⟩
  · by_cases h : (GetFontMetrics m.cache text fontSize style).2 = 0
    · rw [RenderedTextSize_miss measureText text fontSize style m h]
      by_cases h2 : (measureText text fontSize style).2 = 0
      · rw [RenderedTextSize_miss measureText text fontSize style _
          (by simp only [GetFontMetrics_set]; exact h2)]
      · rw [RenderedTextSize_hit measureText text fontSize style _
          (by simp only [GetFontMetrics_set]; exact h2)]
        simp only [GetFontMetrics_set]
    · rw [RenderedTextSize_hit measureText text fontSize style m h]
      simp only
      rw [RenderedTextSize_hit measureText text fontSize style m h]
  · intro h
    rw [RenderedTextSize_miss measureText text fontSize style m h]
    refine ⟨rfl, rfl, by simp [SetFontMetrics], ?_⟩
    intro k hk
    simp [SetFontMetrics, hk]
  · intro h hz n
    exact renderedTimes_zero_base measureText text fontSize style hz n m h

/-- C9, witness: the first call on an empty cache measures and stores; the
stored baseline 2 is not zero. -/
theorem RenderedTextSize_cached_witness :
    (GetFontMetrics emptyMetrics.cache [97] 12 {}).2 = 0 ∧
      (RenderedTextSize sampleMeasure [97] 12 {} emptyMetrics).1 = sampleMeasure [97] 12 {} ∧
      (RenderedTextSize sampleMeasure [97] 12 {}
          (RenderedTextSize sampleMeasure [97] 12 {} emptyMetrics).2).1 =
        (RenderedTextSize sampleMeasure [97] 12 {} emptyMetrics).1 :=
  ⟨rfl,
    ((RenderedTextSize_cached sampleMeasure [97] 12 {} emptyMetrics).2.2.1 rfl).1,
    (RenderedTextSize_cached sampleMeasure [97] 12 {} emptyMetrics).1⟩

/-! ## Theorems: the style cache -/

theorem lookupFaces_faces (loadMeasureFont : Resource → Face) (theme fallback : Resource)
    (family : String) (style : TextStyle) (g : FontIndex) :
    (lookupFaces loadMeasureFont theme fallback family style g).1.faces =
        (if theme = fallback then [loadMeasureFont theme]
          else [loadMeasureFont theme, loadMeasureFont fallback]) ++
          (match (lookupLangFont family (styleAspect style) g).1 with
            | none => []
            | some f => [some f]) ∧
      (lookupFaces loadMeasureFont theme fallback family style g).1.family = family := by
  unfold lookupFaces styleAspect
  rcases style with ⟨b, i, m, sy, tw⟩
  cases b <;> cases i <;>
    simp only [Bool.false_eq_true, if_true, if_false] <;>
    cases hl : (lookupLangFont family _ g).1 <;>
    by_cases h : theme = fallback <;>
    simp_all [dynamicFontMap.addFace]

theorem switchFaces_faces (th : ThemeFonts) (loadMeasureFont : Resource → Face)
    (style : TextStyle) (g : FontIndex) :
    (switchFaces th loadMeasureFont style g).1.faces =
        seedFaces th loadMeasureFont (selectedCase style) ++
          systemFaces (selectedCase style) style g ∧
      (switchFaces th loadMeasureFont style g).1.family = caseFamily (selectedCase style) := by
  unfold switchFaces selectedCase
  by_cases hm : style.Monospace = true
  · simp only [hm, if_true]
    simpa [seedFaces, seedResources, systemFaces, caseFamily] using
      lookupFaces_faces loadMeasureFont th.TextMonospaceFont th.DefaultTextMonospaceFont
        familyMonospace style g
  · by_cases hb : style.Bold = true
    · by_cases hi : style.Italic = true
      · simp only [hm, hb, hi, if_true, if_false, Bool.and_self]
        simpa [seedFaces, seedResources, systemFaces, caseFamily] using
          lookupFaces_faces loadMeasureFont th.TextBoldItalicFont th.DefaultTextBoldItalicFont
            familySansSerif style g
      · simp only [hm, hb, hi, if_true, if_false, Bool.and_false, Bool.false_eq_true,
          Bool.true_and]
        simpa [seedFaces, seedResources, systemFaces, caseFamily] using
          lookupFaces_faces loadMeasureFont th.TextBoldFont th.DefaultTextBoldFont
            familySansSerif style g
    · by_cases hi : style.Italic = true
      · simp only [hm, hb, hi, if_true, if_false, Bool.false_and, Bool.false_eq_true]
        simpa [seedFaces, seedResources, systemFaces, caseFamily] using
          lookupFaces_faces loadMeasureFont th.TextItalicFont th.DefaultTextItalicFont
            familySansSerif style g
      · by_cases hsy : style.Symbol = true
        · simp only [hm, hb, hi, hsy, if_true, if_false, Bool.false_and, Bool.false_eq_true]
          by_cases hr : th.SymbolFont = th.DefaultSymbolFont <;>
            simp [hr, seedFaces, seedResources, systemFaces, caseFamily]
        · simp only [hm, hb, hi, hsy, if_true, if_false, Bool.false_and, Bool.false_eq_true]
          simpa [seedFaces, seedResources, systemFaces, caseFamily] using
            lookupFaces_faces loadMeasureFont th.TextFont th.DefaultTextFont
              familySansSerif style g

theorem buildFaces_faces (th : ThemeFonts) (loadMeasureFont : Resource → Face)
    (style : TextStyle) (g : FontIndex) :
    (buildFaces th loadMeasureFont style g).1.faces =
        seedFaces th loadMeasureFont (selectedCase style) ++
          systemFaces (selectedCase style) style g ++
          (if style.Symbol = true then [] else emojiFaces th loadMeasureFont) ∧
      (buildFaces th loadMeasureFont style g).1.family = caseFamily (selectedCase style) := by
  have hsw := switchFaces_faces th loadMeasureFont style g
  unfold buildFaces emojiFaces
  cases he : th.DefaultEmojiFont with
  | none => simp [hsw.1, hsw.2]
  | some emoji =>
    by_cases hsy : style.Symbol = true
    · simp [hsy, hsw.1, hsw.2]
    · simp [hsy, hsw.1, hsw.2, dynamicFontMap.addFace]

theorem CachedFontFace_on_miss (th : ThemeFonts) (loadMeasureFont : Resource → Face)
    (style : TextStyle) (fontCache : FontCache) (g : FontIndex)
    (hmiss : fontCache style = none) :
    CachedFontFace th loadMeasureFont style fontCache g =
      ({ Fonts := (buildFaces th loadMeasureFont style g).1 },
        fontCache.Store style { Fonts := (buildFaces th loadMeasureFont style g).1 },
        (buildFaces th loadMeasureFont style g).2) := by
  simp [CachedFontFace, hmiss]

/-- C10, as the code does it: on a style-cache miss the face set holds the
seed faces of the case selected by the precedence monospace > bold+italic >
bold > italic > symbol > plain, then the system-font face when the case is not
the symbol case and the lookup found one, then the emoji face when the style's
symbol flag is not set and a default emoji resource exists; so for a style
without the symbol flag the emoji face is the last face, for a style with the
symbol flag no emoji face is appended, and in the symbol case the set holds
only the seed faces. The set is stored under the style. -/
theorem CachedFontFace_miss (th : ThemeFonts) (loadMeasureFont : Resource → Face)
    (style : TextStyle) (fontCache : FontCache) (g : FontIndex)
    (hmiss : fontCache style = none) :
    (CachedFontFace th loadMeasureFont style fontCache g).1.Fonts.faces =
        seedFaces th loadMeasureFont (selectedCase style) ++
          systemFaces (selectedCase style) style g ++
          (if style.Symbol = true then [] else emojiFaces th loadMeasureFont) ∧
      (CachedFontFace th loadMeasureFont style fontCache g).1.Fonts.family =
        caseFamily (selectedCase style) ∧
      (style.Symbol = false → ∀ emoji, th.DefaultEmojiFont = some emoji →
        (CachedFontFace th loadMeasureFont style fontCache g).1.Fonts.faces =
            seedFaces th loadMeasureFont (selectedCase style) ++
              systemFaces (selectedCase style) style g ++ [loadMeasureFont emoji] ∧
          (CachedFontFace th loadMeasureFont style fontCache g).1.Fonts.faces.getLast? =
            some (loadMeasureFont emoji)) ∧
      (style.Symbol = true →
        (CachedFontFace th loadMeasureFont style fontCache g).1.Fonts.faces =
          seedFaces th loadMeasureFont (selectedCase style) ++
            systemFaces (selectedCase style) style g) ∧
      (selectedCase style = SeedCase.symbol →
        (CachedFontFace th loadMeasureFont style fontCache g).1.Fonts.faces =
          seedFaces th loadMeasureFont SeedCase.symbol) ∧
      (∃ item, (CachedFontFace th loadMeasureFont style fontCache g).2.1 style = some item ∧
        item.Fonts.faces = (CachedFontFace th loadMeasureFont style fontCache g).1.Fonts.faces) := by
  have hb := buildFaces_faces th loadMeasureFont style g
  rw [CachedFontFace_on_miss th loadMeasureFont style fontCache g hmiss]
  refine ⟨hb.1, hb.2, ?_, ?_, ?_, ?_⟩
  · intro hsy emoji he
    have hfaces : (buildFaces th loadMeasureFont style g).1.faces =
        seedFaces th loadMeasureFont (selectedCase style) ++
          systemFaces (selectedCase style) style g ++ [loadMeasureFont emoji] := by
      rw [hb.1]
      simp [hsy, emojiFaces, he]
    exact ⟨hfaces, by simp only [hfaces]; simp⟩
  · intro hsy
    simp only [hb.1, hsy, if_true, List.append_nil]
  · intro hcase
    have hsy : style.Symbol = true := by
      unfold selectedCase at hcase
      by_cases h : style.Symbol = true
      · exact h
      · exfalso
        split at hcase
        · exact SeedCase.noConfusion hcase
        · split at hcase
          · exact SeedCase.noConfusion hcase
          · split at hcase
            · exact SeedCase.noConfusion hcase
            · split at hcase
              · exact SeedCase.noConfusion hcase
              · exact SeedCase.noConfusion hcase
    simp only [hb.1, hsy, if_true, List.append_nil, hcase, systemFaces]
  · exact ⟨_, by simp [FontCache.Store], rfl⟩

/-- C10, witness: the bold style on an empty style cache gets the two bold
seed faces and the emoji face. -/
theorem CachedFontFace_miss_witness :
    emptyFontCache boldStyle = none ∧
      (CachedFontFace sampleTheme sampleLoad boldStyle emptyFontCache freshIndex).1.Fonts.faces =
        seedFaces sampleTheme sampleLoad (selectedCase boldStyle) ++
          systemFaces (selectedCase boldStyle) boldStyle freshIndex ++
          (if boldStyle.Symbol = true then [] else emojiFaces sampleTheme sampleLoad) ∧
      (CachedFontFace sampleTheme sampleLoad boldStyle emptyFontCache freshIndex).1.Fonts.faces =
        [sampleLoad 3, sampleLoad 4, sampleLoad 13] :=
  ⟨rfl, (CachedFontFace_miss sampleTheme sampleLoad boldStyle emptyFontCache freshIndex rfl).1,
    rfl⟩

/-- C10, as the specification states it, fails: for a style with the monospace
and the symbol flag the selected case is the monospace case, not the symbol
case, and a default emoji resource is present, yet the face set built on a
miss is the two monospace seed faces, without the emoji face. -/
theorem CachedFontFace_emoji_counterexample :
    emptyFontCache monoSymbolStyle = none ∧
      selectedCase monoSymbolStyle = SeedCase.monospace ∧
      selectedCase monoSymbolStyle ≠ SeedCase.symbol ∧
      sampleTheme.DefaultEmojiFont = some 13 ∧
      (CachedFontFace sampleTheme sampleLoad monoSymbolStyle emptyFontCache
          freshIndex).1.Fonts.faces = [sampleLoad 9, sampleLoad 10] ∧
      (CachedFontFace sampleTheme sampleLoad monoSymbolStyle emptyFontCache
          freshIndex).1.Fonts.faces.getLast? ≠ some (sampleLoad 13) ∧
      sampleLoad 13 ∉ (CachedFontFace sampleTheme sampleLoad monoSymbolStyle emptyFontCache
          freshIndex).1.Fonts.faces := by
  have hfaces : (CachedFontFace sampleTheme sampleLoad monoSymbolStyle emptyFontCache
      freshIndex).1.Fonts.faces = [sampleLoad 9, sampleLoad 10] := by
    rfl
  refine ⟨rfl, rfl, by decide, rfl, hfaces, ?_, ?_⟩
  · rw [hfaces]; decide
  · rw [hfaces]; decide

/-! ## Theorems: tabs in `walkString` -/

theorem tabStop_multiple (spacew : ℚ) (n : Int) (k : Nat) (hs : 0 < spacew) :
    tabStop spacew (tabUnit spacew n * (k : ℚ)) n = tabUnit spacew n * ((k : ℚ) + 1) := by
  have ht := tabUnit_pos spacew n hs
  rw [tabStop_eq_floor spacew _ n hs (mul_nonneg ht.le (Nat.cast_nonneg k))]
  have hq : (tabUnit spacew n * (k : ℚ) + tabUnit spacew n) / tabUnit spacew n =
      (((k + 1 : Nat) : Int) : ℚ) := by
    field_simp
    ring
  rw [hq, Int.floor_intCast]
  push_cast
  ring

theorem shapeCallback_nil (Shape : Input → Output) (inp : Input) (x scale : ℚ)
    (h : (Shape inp).Glyphs = []) : shapeCallback Shape inp x scale = (x, []) := by
  rw [shapeCallback_zeroFree Shape inp x scale (by rw [h]; intro g hg; simp at hg)]
  simp [h, sumAdvance, fixed266ToFloat32]

/-- C7: for a monospace style with tab width 4, scale 1 and a space advance
`w > 0`, `walkString` on a single tab ends with the pen at `4w`, and on two
tabs the pen is at `4w` after the first and at `8w` after the second;
`tabStop(w, 0, 4) = 4w` and `tabStop(w, 4w, 4) = 8w`. The text is one face-run
and the shaper returns no glyph for an empty run. -/
theorem walkString_tabs (SplitByFace : Input → Fontmap → List Input) (Shape : Input → Output)
    (faces : Fontmap) (textSize : Int) (style : TextStyle) (w : ℚ)
    (hmono : style.Monospace = true) (htab : style.TabWidth = 4)
    (hadv : fixed266ToFloat32 (Shape (spaceInput faces textSize)).Advance = w)
    (hw : 0 < w)
    (hsplit1 : SplitByFace (fullInput faces [tabRune] textSize) faces =
      [fullInput faces [tabRune] textSize])
    (hsplit2 : SplitByFace (fullInput faces [tabRune, tabRune] textSize) faces =
      [fullInput faces [tabRune, tabRune] textSize])
    (hempty : ∀ i : Input, i.RunStart = i.RunEnd → (Shape i).Glyphs = []) :
    (∃ r, walkString SplitByFace Shape faces [tabRune] textSize style 1 = some r ∧
        r.advance = 4 * w ∧ r.size.1 = 4 * w ∧ r.tabs = [4 * w]) ∧
      (∃ r, walkString SplitByFace Shape faces [tabRune, tabRune] textSize style 1 = some r ∧
        r.advance = 8 * w ∧ r.size.1 = 8 * w ∧ r.tabs = [4 * w, 8 * w]) ∧
      tabStop w 0 4 = 4 * w ∧ tabStop w (4 * w) 4 = 8 * w := by
  have hu : tabUnit w 4 = w * 4 := by simp [tabUnit]
  have h0 : tabStop w 0 4 = 4 * w := by
    have := tabStop_multiple w 4 0 hw
    rw [hu] at this
    simp only [Nat.cast_zero, mul_zero, zero_add, mul_one] at this
    rw [this]; ring
  have h1 : tabStop w (4 * w) 4 = 8 * w := by
    have := tabStop_multiple w 4 1 hw
    rw [hu] at this
    simp only [Nat.cast_one, mul_one] at this
    rw [show 4 * w = w * 4 by ring, this]; ring
  refine ⟨?_, ?_, h0, h1⟩
  · simp only [walkString, hsplit1, hmono, if_true, one_mul, hadv]
    have hs : stripCR [tabRune] = [tabRune] := by decide
    simp only [walkRuns, walkRun, fullInput, spaceInput, hs, List.length_singleton, slice,
      List.drop_zero, Nat.sub_zero, List.take_succ_cons, List.take_zero, tabLoop, tabStep,
      htab, h0, callShape]
    rw [shapeCallback_nil Shape _ _ _ (hempty _ rfl)]
    simp [h0]
  · simp only [walkString, hsplit2, hmono, if_true, one_mul, hadv]
    have hs : stripCR [tabRune, tabRune] = [tabRune, tabRune] := by decide
    simp only [walkRuns, walkRun, fullInput, spaceInput, hs, List.length_cons,
      List.length_nil, slice, List.drop_zero, Nat.sub_zero, List.take_succ_cons, List.take_zero,
      tabLoop, tabStep, htab, h0, h1, callShape]
    rw [shapeCallback_nil Shape _ _ _ (hempty _ rfl)]
    simp [h0, h1]

theorem sampleShaper_empty :
    ∀ i : Input, i.RunStart = i.RunEnd → (sampleShaper i).Glyphs = [] := by
  intro i h
  simp [sampleShaper, Input.runText, slice, h]

/-- C7, witness: the sample shaper gives the space an advance of 1. -/
theorem walkString_tabs_witness :
    (monoStyle.Monospace = true ∧ monoStyle.TabWidth = 4 ∧
        fixed266ToFloat32 (sampleShaper (spaceInput sampleFaceMap 768)).Advance = 1 ∧
        (0 : ℚ) < 1 ∧
        sampleSplit (fullInput sampleFaceMap [tabRune] 768) sampleFaceMap =
          [fullInput sampleFaceMap [tabRune] 768] ∧
        sampleSplit (fullInput sampleFaceMap [tabRune, tabRune] 768) sampleFaceMap =
          [fullInput sampleFaceMap [tabRune, tabRune] 768] ∧
        (∀ i : Input, i.RunStart = i.RunEnd → (sampleShaper i).Glyphs = [])) ∧
      ((∃ r, walkString sampleSplit sampleShaper sampleFaceMap [tabRune] 768 monoStyle 1 =
            some r ∧
          r.advance = 4 * 1 ∧ r.size.1 = 4 * 1 ∧ r.tabs = [4 * 1]) ∧
        (∃ r, walkString sampleSplit sampleShaper sampleFaceMap [tabRune, tabRune] 768
              monoStyle 1 = some r ∧
          r.advance = 8 * 1 ∧ r.size.1 = 8 * 1 ∧ r.tabs = [4 * 1, 8 * 1]) ∧
        tabStop 1 0 4 = 4 * 1 ∧ tabStop 1 (4 * 1) 4 = 8 * 1) :=
  ⟨⟨rfl, rfl, by norm_num [sampleShaper, spaceInput, Input.runText, slice, fixed266ToFloat32],
      by norm_num, by decide, by decide, sampleShaper_empty⟩,
    walkString_tabs sampleSplit sampleShaper sampleFaceMap 768 monoStyle 1 rfl rfl
      (by norm_num [sampleShaper, spaceInput, Input.runText, slice, fixed266ToFloat32])
      (by norm_num) (by decide) (by decide) sampleShaper_empty⟩

/-! ## Theorems: the sub-runs of `walkString` -/

/-- C1 at a failing input: for the text `a`, U+1F600, tab, `b` the splitter
returns the face-runs `[0,1)`, `[1,3)`, `[3,4)`; in the second run the tab is
found at index 1 of the ranged slice and that index is used as an index into
the whole text, so `walkString` hands the shaper the sub-runs `[0,1)`,
`[1,1)`, `[2,3)`, `[3,4)`: the third one is the tab itself, and the emoji is
in none of them. -/
theorem walkString_tab_in_later_run :
    runBounds (sampleSplit (fullInput sampleFaceMap emojiTabText 768) sampleFaceMap) =
        [(0, 1), (1, 3), (3, 4)] ∧
      (walkString sampleSplit sampleShaper sampleFaceMap emojiTabText 768 {} 1).map
          (fun r => runBounds r.shaped) = some [(0, 1), (1, 1), (2, 3), (3, 4)] ∧
      (walkString sampleSplit sampleShaper sampleFaceMap emojiTabText 768 {} 1).map
          (fun r => r.shaped.map Input.runText) = some [[97], [], [tabRune], [98]] ∧
      (walkString sampleSplit sampleShaper sampleFaceMap emojiTabText 768 {} 1).map
          (fun r => shapedText r.shaped) = some [97, tabRune, 98] ∧
      stripCRTab emojiTabText = [97, 128512, 98] := by
  refine ⟨by decide, by decide, by decide, by decide, by decide⟩

theorem tabStep_inp (Shape : Input → Output) (scale spacew : ℚ) (style : TextStyle)
    (inEnd : Nat) (v : RunVars) (i : Nat) (r : Rune) (a b : Nat) :
    { (tabStep Shape scale spacew style inEnd v i r).inp with RunStart := a, RunEnd := b } =
      { v.inp with RunStart := a, RunEnd := b } := by
  unfold tabStep
  split <;> rfl

theorem tabLoop_tabFree (Shape : Input → Output) (scale spacew : ℚ) (style : TextStyle)
    (inEnd : Nat) (rest : List Rune) :
    ∀ (i : Nat) (v : RunVars), tabRune ∉ rest →
      tabLoop Shape scale spacew style inEnd rest i v =
        { v with pending := v.pending || !rest.isEmpty } := by
  induction rest with
  | nil => intro i v _; simp [tabLoop]
  | cons r rest ih =>
    intro i v h
    have hr : r ≠ tabRune := fun h1 => h (by rw [h1]; exact List.mem_cons_self _ _)
    have hrest : tabRune ∉ rest := fun h1 => h (List.mem_cons_of_mem _ h1)
    simp only [tabLoop]
    rw [ih (i + 1) _ hrest]
    simp [tabStep, hr]

theorem tabLoop_last_tab (Shape : Input → Output) (scale spacew : ℚ) (style : TextStyle)
    (inEnd : Nat) (post : List Rune) (hpost : tabRune ∉ post) (pre : List Rune) :
    ∀ (i : Nat) (v : RunVars),
      (tabLoop Shape scale spacew style inEnd (pre ++ tabRune :: post) i v).inp =
        { v.inp with RunStart := i + pre.length + 1, RunEnd := inEnd } := by
  induction pre with
  | nil =>
    intro i v
    simp only [List.nil_append, tabLoop]
    rw [tabLoop_tabFree Shape scale spacew style inEnd post (i + 1) _ hpost]
    simp [tabStep]
  | cons r pre ih =>
    intro i v
    show (tabLoop Shape scale spacew style inEnd (pre ++ tabRune :: post) (i + 1)
      (tabStep Shape scale spacew style inEnd v i r)).inp = _
    rw [ih (i + 1) _, tabStep_inp]
    simp only [List.length_cons]
    congr 1
    omega

theorem exists_last_tab (l : List Rune) (h : tabRune ∈ l) :
    ∃ pre post, l = pre ++ tabRune :: post ∧ tabRune ∉ post := by
  induction l with
  | nil => simp at h
  | cons r l ih =>
    by_cases hl : tabRune ∈ l
    · obtain ⟨pre, post, hsplit, hpost⟩ := ih hl
      exact ⟨r :: pre, post, by simp [hsplit], hpost⟩
    · rcases List.mem_cons.mp h with h1 | h1
      · exact ⟨[], l, by simp [h1], hl⟩
      · exact absurd h1 hl

theorem slice_decomp {α : Type} (t : List α) (a b : Nat) (hab : a ≤ b) :
    t = t.take a ++ slice t a b ++ t.drop b := by
  have h1 : t.drop a = (t.drop a).take (b - a) ++ (t.drop a).drop (b - a) :=
    (List.take_append_drop (b - a) (t.drop a)).symm
  have h2 : (t.drop a).drop (b - a) = t.drop b := by
    rw [List.drop_drop]
    congr 1
    omega
  have h3 : t = t.take a ++ t.drop a := (List.take_append_drop a t).symm
  rw [h2] at h1
  unfold slice
  rw [List.append_assoc, ← h1, ← h3]

theorem slice_of_append {α : Type} (l tail : List α) (k : Nat) (hk : k ≤ l.length) :
    slice (l ++ tail) k l.length = l.drop k := by
  unfold slice
  rw [List.drop_append_of_le_length hk, List.take_append_of_le_length (by simp)]
  rw [List.take_of_length_le (by simp)]

/-- A face-run that starts after index 0 and holds a tab: the last sub-run
that `walkString` hands to the shaper for it holds a tab. -/
theorem walkRun_tab_leak (Shape : Input → Output) (scale spacew : ℚ) (style : TextStyle)
    (inp : Input) (w : WalkVars)
    (hse : inp.RunStart ≤ inp.RunEnd) (hel : inp.RunEnd ≤ inp.Text.length)
    (hstart : 0 < inp.RunStart) (htab : tabRune ∈ inp.runText) :
    ∃ w1 j, walkRun Shape scale spacew style inp w = some w1 ∧
      w1.shaped.getLast? = some j ∧ tabRune ∈ j.runText := by
  obtain ⟨pre, post, hsplit, hpost⟩ := exists_last_tab inp.runText htab
  unfold Input.runText at hsplit
  have hinp : (tabLoop Shape scale spacew style inp.RunEnd (slice inp.Text inp.RunStart inp.RunEnd)
      0 { inp := inp, pending := false, w := w }).inp =
      { inp with RunStart := pre.length + 1, RunEnd := inp.RunEnd } := by
    rw [hsplit, tabLoop_last_tab Shape scale spacew style inp.RunEnd post hpost pre]
    simp
  have hwalk : walkRun Shape scale spacew style inp w =
      some (callShape Shape scale { inp with RunStart := pre.length + 1, RunEnd := inp.RunEnd }
        (tabLoop Shape scale spacew style inp.RunEnd (slice inp.Text inp.RunStart inp.RunEnd)
          0 { inp := inp, pending := false, w := w }).w) := by
    simp only [walkRun, hse, hel, and_self, if_true, hinp]
  refine ⟨_, { inp with RunStart := pre.length + 1, RunEnd := inp.RunEnd }, hwalk, ?_, ?_⟩
  · simp [callShape]
  · have hdec := slice_decomp inp.Text inp.RunStart inp.RunEnd hse
    rw [hsplit] at hdec
    have hlenA : (inp.Text.take inp.RunStart).length = inp.RunStart := by
      rw [List.length_take]; omega
    have hlenM : (pre ++ tabRune :: post).length = inp.RunEnd - inp.RunStart := by
      rw [← hsplit]; simp [slice]; omega
    have hlen : (inp.Text.take inp.RunStart ++ (pre ++ tabRune :: post)).length = inp.RunEnd := by
      rw [List.length_append, hlenA, hlenM]; omega
    have hk : pre.length + 1 ≤ (inp.Text.take inp.RunStart ++ pre).length := by
      rw [List.length_append, hlenA]; omega
    have hrun : slice inp.Text (pre.length + 1) inp.RunEnd =
        (inp.Text.take inp.RunStart ++ pre).drop (pre.length + 1) ++ tabRune :: post := by
      have h1 := slice_of_append (inp.Text.take inp.RunStart ++ (pre ++ tabRune :: post))
        (inp.Text.drop inp.RunEnd) (pre.length + 1)
        (by rw [hlen]; simp at hlenM; omega)
      rw [hlen, ← hdec] at h1
      rw [h1, ← List.append_assoc, List.drop_append_of_le_length hk]
    simp only [Input.runText]
    rw [hrun]
    simp

theorem tabLoop_shaped_mem (Shape : Input → Output) (scale spacew : ℚ) (style : TextStyle)
    (inEnd : Nat) (j : Input) (rest : List Rune) :
    ∀ (i : Nat) (v : RunVars), j ∈ v.w.shaped →
      j ∈ (tabLoop Shape scale spacew style inEnd rest i v).w.shaped := by
  induction rest with
  | nil => intro i v h; exact h
  | cons r rest ih =>
    intro i v h
    simp only [tabLoop]
    apply ih
    unfold tabStep
    by_cases hr : r = tabRune
    · by_cases hp : v.pending = true
      · simp [hr, hp, callShape, h]
      · simp [hr, hp, h]
    · simp [hr, h]

theorem walkRun_shaped_mem (Shape : Input → Output) (scale spacew : ℚ) (style : TextStyle)
    (inp : Input) (w w1 : WalkVars) (h : walkRun Shape scale spacew style inp w = some w1)
    (j : Input) (hj : j ∈ w.shaped) : j ∈ w1.shaped := by
  unfold walkRun at h
  split at h
  · injection h with h
    rw [← h]
    simp only [callShape, List.mem_append]
    exact Or.inl (tabLoop_shaped_mem Shape scale spacew style inp.RunEnd j _ 0 _ hj)
  · exact Option.noConfusion h

theorem walkRuns_shaped_mem (Shape : Input → Output) (scale spacew : ℚ) (style : TextStyle)
    (ins : List Input) :
    ∀ (w w1 : WalkVars), walkRuns Shape scale spacew style ins w = some w1 →
      ∀ j ∈ w.shaped, j ∈ w1.shaped := by
  induction ins with
  | nil =>
    intro w w1 h j hj
    simp only [walkRuns] at h
    injection h with h
    rw [← h]; exact hj
  | cons inp rest ih =>
    intro w w1 h j hj
    simp only [walkRuns] at h
    cases hrun : walkRun Shape scale spacew style inp w with
    | none => rw [hrun] at h; exact Option.noConfusion h
    | some wa =>
      rw [hrun] at h
      exact ih wa w1 h j (walkRun_shaped_mem Shape scale spacew style inp w wa hrun j hj)

theorem walkRuns_some (Shape : Input → Output) (scale spacew : ℚ) (style : TextStyle)
    (ins : List Input) :
    ∀ (w : WalkVars), (∀ i ∈ ins, i.RunStart ≤ i.RunEnd ∧ i.RunEnd ≤ i.Text.length) →
      ∃ w1, walkRuns Shape scale spacew style ins w = some w1 := by
  induction ins with
  | nil => intro w _; exact ⟨w, rfl⟩
  | cons inp rest ih =>
    intro w hv
    have hb := hv inp (List.mem_cons_self _ _)
    obtain ⟨w1, hw1⟩ := ih
      (callShape Shape scale
        (tabLoop Shape scale spacew style inp.RunEnd (slice inp.Text inp.RunStart inp.RunEnd)
          0 { inp := inp, pending := false, w := w }).inp
        (tabLoop Shape scale spacew style inp.RunEnd (slice inp.Text inp.RunStart inp.RunEnd)
          0 { inp := inp, pending := false, w := w }).w)
      (fun i hi => hv i (List.mem_cons_of_mem _ hi))
    exact ⟨w1, by simp only [walkRuns, walkRun, hb.1, hb.2, and_self, if_true, hw1]⟩

theorem walkRuns_tab_leak (Shape : Input → Output) (scale spacew : ℚ) (style : TextStyle)
    (ins : List Input) :
    ∀ (w : WalkVars), (∀ i ∈ ins, i.RunStart ≤ i.RunEnd ∧ i.RunEnd ≤ i.Text.length) →
      (∃ i ∈ ins, 0 < i.RunStart ∧ tabRune ∈ i.runText) →
      ∃ w1, walkRuns Shape scale spacew style ins w = some w1 ∧
        ∃ j ∈ w1.shaped, tabRune ∈ j.runText := by
  induction ins with
  | nil =>
    intro w _ hbad
    obtain ⟨i, hi, _⟩ := hbad
    simp at hi
  | cons inp rest ih =>
    intro w hv hbad
    have hb := hv inp (List.mem_cons_self _ _)
    have hvrest : ∀ i ∈ rest, i.RunStart ≤ i.RunEnd ∧ i.RunEnd ≤ i.Text.length :=
      fun i hi => hv i (List.mem_cons_of_mem _ hi)
    by_cases hinp : 0 < inp.RunStart ∧ tabRune ∈ inp.runText
    · obtain ⟨wa, j, hwa, hlast, hj⟩ :=
        walkRun_tab_leak Shape scale spacew style inp w hb.1 hb.2 hinp.1 hinp.2
      obtain ⟨w1, hw1⟩ := walkRuns_some Shape scale spacew style rest wa hvrest
      refine ⟨w1, by simp only [walkRuns, hwa, hw1], j, ?_, hj⟩
      exact walkRuns_shaped_mem Shape scale spacew style rest wa w1 hw1 j
        (List.mem_of_getLast?_eq_some hlast)
    · obtain ⟨wa, hwa⟩ : ∃ wa, walkRun Shape scale spacew style inp w = some wa := by
        rw [walkRun, if_pos hb]
        exact ⟨_, rfl⟩
      have hbad2 : ∃ i ∈ rest, 0 < i.RunStart ∧ tabRune ∈ i.runText := by
        obtain ⟨i, hi, hi2⟩ := hbad
        rcases List.mem_cons.mp hi with h | h
        · rw [h] at hi2; exact absurd hi2 hinp
        · exact ⟨i, h, hi2⟩
      obtain ⟨w1, hw1, hj⟩ := ih wa hvrest hbad2
      exact ⟨w1, by simp only [walkRuns, hwa, hw1], hj⟩

/-- Every face-run that starts after index 0 and holds a tab makes
`walkString` hand the shaper a sub-run that holds a tab, whatever the text,
the splitter and the shaper. -/
theorem walkString_tab_leak (SplitByFace : Input → Fontmap → List Input)
    (Shape : Input → Output) (faces : Fontmap) (s : List Rune) (textSize : Int)
    (style : TextStyle) (scale : ℚ)
    (hvalid : ∀ i ∈ SplitByFace (fullInput faces s textSize) faces,
      i.RunStart ≤ i.RunEnd ∧ i.RunEnd ≤ i.Text.length)
    (hbad : ∃ i ∈ SplitByFace (fullInput faces s textSize) faces,
      0 < i.RunStart ∧ tabRune ∈ i.runText) :
    ∃ r, walkString SplitByFace Shape faces s textSize style scale = some r ∧
      ∃ j ∈ r.shaped, tabRune ∈ j.runText := by
  obtain ⟨w1, hw1, hj⟩ := walkRuns_tab_leak Shape scale
    (if style.Monospace = true then
      scale * fixed266ToFloat32 (Shape (spaceInput faces textSize)).Advance
      else scale * fontTabSpaceSize) style
    (SplitByFace (fullInput faces s textSize) faces)
    { x := 0, shaped := [], calls := [], tabs := [] } hvalid hbad
  have hr : walkString SplitByFace Shape faces s textSize style scale =
      some
        { size := (w1.x,
            fixed266ToFloat32 (Shape (spaceInput faces textSize)).LineBounds.LineThickness)
          base := fixed266ToFloat32 (Shape (spaceInput faces textSize)).LineBounds.Ascent
          advance := w1.x
          shaped := w1.shaped
          calls := w1.calls
          tabs := w1.tabs } := by
    simp only [walkString, hw1]
  exact ⟨_, hr, hj⟩

theorem tabPieces_flatten (cur rest : List Rune) :
    (tabPieces cur rest).flatten = cur ++ rest.filter (fun r => r != tabRune) := by
  induction rest generalizing cur with
  | nil => simp [tabPieces]
  | cons r rest ih =>
    by_cases hr : r = tabRune
    · by_cases h : cur = [] <;> simp [tabPieces, hr, h, ih]
    · simp [tabPieces, hr, ih]

theorem tabPieces_tabFree (cur rest : List Rune) (hcur : tabRune ∉ cur) :
    ∀ piece ∈ tabPieces cur rest, tabRune ∉ piece := by
  induction rest generalizing cur with
  | nil =>
    intro piece hp
    simp only [tabPieces, List.mem_singleton] at hp
    rw [hp]; exact hcur
  | cons r rest ih =>
    intro piece hp
    by_cases hr : r = tabRune
    · simp only [tabPieces, hr, if_true, List.mem_append] at hp
      rcases hp with hp | hp
      · by_cases h : cur = []
        · simp [h] at hp
        · simp only [h, if_false, List.mem_singleton] at hp
          rw [hp]; exact hcur
      · exact ih [] (by simp) piece hp
    · simp only [tabPieces, hr, if_false] at hp
      refine ih (cur ++ [r]) ?_ piece hp
      intro hmem
      rcases List.mem_append.mp hmem with h | h
      · exact hcur h
      · exact hr (List.mem_singleton.mp h).symm

theorem tabPieces_of_tabFree (cur rest : List Rune) (hrest : tabRune ∉ rest) :
    tabPieces cur rest = [cur ++ rest] := by
  induction rest generalizing cur with
  | nil => simp [tabPieces]
  | cons r rest ih =>
    have hr : r ≠ tabRune := fun h1 => hrest (by rw [h1]; exact List.mem_cons_self _ _)
    have h2 : tabRune ∉ rest := fun h1 => hrest (List.mem_cons_of_mem _ h1)
    simp [tabPieces, hr, ih (cur ++ [r]) h2]

theorem tabLoop_pieces (Shape : Input → Output) (scale spacew : ℚ) (style : TextStyle)
    (tail : List Rune) (rest : List Rune) :
    ∀ (done cur : List Rune) (v : RunVars),
      v.inp.Text = done ++ cur ++ rest ++ tail → v.inp.RunStart = done.length →
      v.inp.RunEnd = (done ++ cur ++ rest).length →
      (v.pending = true ↔ cur ≠ []) →
      (callShape Shape scale
          (tabLoop Shape scale spacew style (done ++ cur ++ rest).length rest
            (done.length + cur.length) v).inp
          (tabLoop Shape scale spacew style (done ++ cur ++ rest).length rest
            (done.length + cur.length) v).w).shaped.map Input.runText =
        v.w.shaped.map Input.runText ++ tabPieces cur rest := by
  induction rest with
  | nil =>
    intro done cur v ht hs hend _
    have hrun : v.inp.runText = cur := by
      unfold Input.runText
      rw [ht, hs, hend]
      have := slice_mid done cur tail
      simpa using this
    simp [tabLoop, callShape, tabPieces, hrun]
  | cons r rest ih =>
    intro done cur v ht hs hend hp
    by_cases hr : r = tabRune
    · subst hr
      have hgl : done ++ cur ++ tabRune :: rest = (done ++ cur ++ [tabRune]) ++ [] ++ rest := by
        simp
      have hlen : done.length + cur.length + 1 =
          (done ++ cur ++ [tabRune]).length + ([] : List Rune).length := by
        simp [Nat.add_assoc]
      have hcur : slice v.inp.Text v.inp.RunStart (done.length + cur.length) = cur := by
        rw [ht, hs]
        have := slice_mid done cur (tabRune :: rest ++ tail)
        simpa [List.append_assoc] using this
      simp only [tabLoop]
      rw [hgl, hlen]
      rw [ih (done ++ cur ++ [tabRune]) [] _ (by simp [tabStep, ht])
        (by simp [tabStep, Nat.add_assoc]) (by simp [tabStep]) (by simp [tabStep])]
      by_cases h : cur = []
      · have hpf : v.pending = false := by
          cases hv : v.pending
          · rfl
          · exact absurd (hp.mp hv) (by simp [h])
        simp [tabStep, tabPieces, hpf, h]
      · have hpt : v.pending = true := hp.mpr h
        simp [tabStep, tabPieces, hpt, h, callShape, Input.runText, hcur]
    · have hgl : done ++ cur ++ r :: rest = done ++ (cur ++ [r]) ++ rest := by simp
      have hlen : done.length + cur.length + 1 = done.length + (cur ++ [r]).length := by
        simp [Nat.add_assoc]
      simp only [tabLoop]
      rw [hgl, hlen]
      rw [ih done (cur ++ [r]) _ (by simp [tabStep, hr, ht]) (by simp [tabStep, hr, hs])
        (by simp [tabStep, hr, hend]) (by simp [tabStep, hr])]
      simp [tabStep, hr, tabPieces]

theorem slice_zero_length {α : Type} (t : List α) (e : Nat) (he : e ≤ t.length) :
    (slice t 0 e).length = e := by
  simp [slice, he]

theorem walkRun_pieces (Shape : Input → Output) (scale spacew : ℚ) (style : TextStyle)
    (inp : Input) (w : WalkVars)
    (hse : inp.RunStart ≤ inp.RunEnd) (hel : inp.RunEnd ≤ inp.Text.length)
    (hgood : inp.RunStart = 0 ∨ tabRune ∉ inp.runText) :
    ∃ w1, walkRun Shape scale spacew style inp w = some w1 ∧
      w1.shaped.map Input.runText = w.shaped.map Input.runText ++ tabPieces [] inp.runText := by
  rw [walkRun, if_pos ⟨hse, hel⟩]
  refine ⟨_, rfl, ?_⟩
  by_cases h0 : inp.RunStart = 0
  · have hdec := slice_decomp inp.Text 0 inp.RunEnd (Nat.zero_le _)
    have hlen := slice_zero_length inp.Text inp.RunEnd hel
    have h := tabLoop_pieces Shape scale spacew style (inp.Text.drop inp.RunEnd)
      (slice inp.Text 0 inp.RunEnd) [] [] { inp := inp, pending := false, w := w }
      (by simpa using hdec) (by simpa using h0) (by simpa using hlen.symm) (by simp)
    simp only [List.nil_append, List.length_nil, Nat.add_zero, hlen] at h
    simp only [Input.runText, h0]
    exact h
  · have htf : tabRune ∉ inp.runText := by
      rcases hgood with h | h
      · exact absurd h h0
      · exact h
    have htf2 : tabRune ∉ slice inp.Text inp.RunStart inp.RunEnd := htf
    rw [tabLoop_tabFree Shape scale spacew style inp.RunEnd _ 0 _ htf2]
    rw [tabPieces_of_tabFree [] inp.runText htf]
    simp [callShape]

theorem walkRuns_pieces (Shape : Input → Output) (scale spacew : ℚ) (style : TextStyle)
    (ins : List Input) :
    ∀ (w : WalkVars), (∀ i ∈ ins, i.RunStart ≤ i.RunEnd ∧ i.RunEnd ≤ i.Text.length) →
      (∀ i ∈ ins, i.RunStart = 0 ∨ tabRune ∉ i.runText) →
      ∃ w1, walkRuns Shape scale spacew style ins w = some w1 ∧
        w1.shaped.map Input.runText =
          w.shaped.map Input.runText ++
            (ins.map (fun i => tabPieces [] i.runText)).flatten := by
  induction ins with
  | nil => intro w _ _; exact ⟨w, rfl, by simp⟩
  | cons inp rest ih =>
    intro w hv hg
    have hb := hv inp (List.mem_cons_self _ _)
    obtain ⟨wa, hwa, hsa⟩ := walkRun_pieces Shape scale spacew style inp w hb.1 hb.2
      (hg inp (List.mem_cons_self _ _))
    obtain ⟨w1, hw1, hs1⟩ := ih wa (fun i hi => hv i (List.mem_cons_of_mem _ hi))
      (fun i hi => hg i (List.mem_cons_of_mem _ hi))
    refine ⟨w1, by simp only [walkRuns, hwa, hw1], ?_⟩
    rw [hs1, hsa]
    simp

theorem pieces_flatten (ins : List Input) :
    ((ins.map (fun i => tabPieces [] i.runText)).flatten).flatten =
      ((ins.map Input.runText).flatten).filter (fun r => r != tabRune) := by
  induction ins with
  | nil => simp
  | cons inp rest ih =>
    simp only [List.map_cons, List.flatten_cons, List.flatten_append, List.filter_append, ih,
      tabPieces_flatten, List.nil_append]

theorem slice_append_slice {α : Type} (t : List α) (a m b : Nat) (ham : a ≤ m) (hmb : m ≤ b) :
    slice t a m ++ slice t m b = slice t a b := by
  unfold slice
  have h1 : b - a = (m - a) + (b - m) := by omega
  have h2 : t.drop m = (t.drop a).drop (m - a) := by
    rw [List.drop_drop]
    congr 1
    omega
  rw [h1, List.take_add, h2]

theorem isSplitFrom_spec (text : List Rune) (b : Nat) (hb : b ≤ text.length) (ins : List Input) :
    ∀ a : Nat, isSplitFrom text b a ins = true →
      a ≤ b ∧ (∀ i ∈ ins, i.RunStart ≤ i.RunEnd ∧ i.RunEnd ≤ i.Text.length) ∧
        (∀ i ∈ ins, a ≤ i.RunStart) ∧
        (ins.map Input.runText).flatten = slice text a b := by
  induction ins with
  | nil =>
    intro a h
    simp only [isSplitFrom, beq_iff_eq] at h
    subst h
    simp [slice]
  | cons inp rest ih =>
    intro a h
    simp only [isSplitFrom, Bool.and_eq_true, beq_iff_eq, decide_eq_true_eq] at h
    obtain ⟨⟨⟨⟨htext, hstart⟩, hae⟩, heb⟩, hrest⟩ := h
    obtain ⟨h1, h2, h3, h4⟩ := ih inp.RunEnd hrest
    refine ⟨le_trans hae h1, ?_, ?_, ?_⟩
    · intro i hi
      rcases List.mem_cons.mp hi with h | h
      · rw [h, htext, hstart]
        exact ⟨hae, le_trans heb hb⟩
      · exact h2 i h
    · intro i hi
      rcases List.mem_cons.mp hi with h | h
      · rw [h, hstart]
      · exact le_trans hae (h3 i h)
    · simp only [List.map_cons, List.flatten_cons, h4, Input.runText, htext, hstart]
      exact slice_append_slice text a inp.RunEnd b hae h1

theorem stripCRTab_eq (s : List Rune) :
    stripCRTab s = (stripCR s).filter (fun r => r != tabRune) := by
  simp only [stripCRTab, stripCR, List.filter_filter]
  congr 1
  funext r
  exact Bool.and_comm _ _

/-- When the face-runs divide the text in order and no face-run that starts
after index 0 holds a tab, the sub-runs handed to the shaper hold no tab and
concatenate to the text without carriage returns and tabs. -/
theorem walkString_runs (SplitByFace : Input → Fontmap → List Input)
    (Shape : Input → Output) (faces : Fontmap) (s : List Rune) (textSize : Int)
    (style : TextStyle) (scale : ℚ)
    (hsplit : isSplitFrom (stripCR s) (stripCR s).length 0
      (SplitByFace (fullInput faces s textSize) faces) = true)
    (hgood : ∀ i ∈ SplitByFace (fullInput faces s textSize) faces,
      0 < i.RunStart → tabRune ∉ i.runText) :
    ∃ r, walkString SplitByFace Shape faces s textSize style scale = some r ∧
      (∀ j ∈ r.shaped, tabRune ∉ j.runText) ∧
      shapedText r.shaped = stripCRTab s := by
  obtain ⟨_, hvalid, _, hflat⟩ := isSplitFrom_spec (stripCR s) (stripCR s).length (le_refl _)
    (SplitByFace (fullInput faces s textSize) faces) 0 hsplit
  have hg : ∀ i ∈ SplitByFace (fullInput faces s textSize) faces,
      i.RunStart = 0 ∨ tabRune ∉ i.runText := by
    intro i hi
    by_cases h0 : i.RunStart = 0
    · exact Or.inl h0
    · exact Or.inr (hgood i hi (Nat.pos_of_ne_zero h0))
  obtain ⟨w1, hw1, hs1⟩ := walkRuns_pieces Shape scale
    (if style.Monospace = true then
      scale * fixed266ToFloat32 (Shape (spaceInput faces textSize)).Advance
      else scale * fontTabSpaceSize) style
    (SplitByFace (fullInput faces s textSize) faces)
    { x := 0, shaped := [], calls := [], tabs := [] } hvalid hg
  simp only [List.map_nil, List.nil_append] at hs1
  have hr : walkString SplitByFace Shape faces s textSize style scale =
      some
        { size := (w1.x,
            fixed266ToFloat32 (Shape (spaceInput faces textSize)).LineBounds.LineThickness)
          base := fixed266ToFloat32 (Shape (spaceInput faces textSize)).LineBounds.Ascent
          advance := w1.x
          shaped := w1.shaped
          calls := w1.calls
          tabs := w1.tabs } := by
    simp only [walkString, hw1]
  refine ⟨_, hr, ?_, ?_⟩
  · intro j hj
    have hmem : j.runText ∈ w1.shaped.map Input.runText := List.mem_map_of_mem _ hj
    rw [hs1] at hmem
    obtain ⟨l, hl, hjl⟩ := List.mem_flatten.mp hmem
    obtain ⟨i, _, hi⟩ := List.mem_map.mp hl
    rw [← hi] at hjl
    exact tabPieces_tabFree [] i.runText (by simp) j.runText hjl
  · show (w1.shaped.map Input.runText).flatten = stripCRTab s
    rw [hs1, pieces_flatten, hflat, stripCRTab_eq]
    congr 1
    simp [slice]

end Painter
